import Mathlib

/-!
Tic-tac-toe autoplayer (`src/main.cpp`): embedding and verified properties.

The program plays a 9x9 tic-tac-toe variant against itself.  This file embeds
`struct Game` (the board, the four rank scans, `rate`, `winner`,
`iterateOverLines`), the free functions `cellToStr`, `print`,
`find_best_simple` and `find_best`, and the loop of `main` as Lean definitions,
and proves properties of them.

Conventions of the embedding:

* `int` values are `Int`.  Ranks and rates stay within `-1 .. 20 * 81`, so no
  overflow can occur in them; the index expression of `at` on arbitrary
  arguments is guarded against overflow of a 32-bit `int`.
* Loop indices `for (int i = 0; i < BoardSize; ++i)` range over `Fin BoardSize`,
  visited in increasing order (`List.finRange`).
* `Game::at(int, int)` performs no range test.  `Game.at` is the accessor on
  loop indices; `Game.atInt` is the same accessor on arbitrary `int` arguments,
  where `none` stands for undefined behaviour (an access outside the array or
  signed overflow in the index expression; nothing is thrown).
* A local `int` that is declared without an initialiser (`best_i`, `best_j`) is
  an `Option Int`; `none` means that no value was ever assigned.
* Output (`fmt::print`) is not part of the embedded functions, except for
  `print`, which is embedded as the text it writes.
* The loop of `main` is a function with fuel (`mainLoop`), one unit per
  evaluation of the loop condition.  Its result `Run` tells a normal exit from
  undefined behaviour and from exhausted fuel, and carries the log of the passes
  through the loop body.  The initial value of `iteration_limit` is a parameter
  of `mainRun`; `main` uses `mainLimit = 50`.
* Concrete boards of the game played by `main` are written with two bit masks
  (`Game.ofMasks`), bit `9 * i + j` standing for cell `(i, j)`.
-/

namespace TicTacToe

/-! ## Data model -/

/-- The constant `BoardSize` (`constexpr auto BoardSize = 9`). -/
abbrev BoardSize : Nat := 9

/-- The enumeration `Game::Cell`, with `E` for the enumerator written `_`. -/
inductive Cell where
  | E
  | O
  | X
  deriving DecidableEq, Repr

/-- The type `Game::Board`: `std::array<Cell, BoardSize * BoardSize>`. -/
abbrev Board := Fin (BoardSize * BoardSize) → Cell

/-- The `struct Game`; its only data member is `board`. -/
structure Game where
  board : Board

/-- The default-constructed game, `Board board = {Cell::_}`: every cell is `_`. -/
def Game.init : Game := ⟨fun _ => Cell.E⟩

/-- Flat array index `i * BoardSize + j` of a pair of loop indices. -/
def idx (i j : Fin BoardSize) : Fin (BoardSize * BoardSize) :=
  ⟨i.val * BoardSize + j.val, by
    have hi := i.isLt
    have hj := j.isLt
    simp only [BoardSize] at hi hj ⊢
    omega⟩

/-- Reading `at(i, j)` for loop indices: `board[i * BoardSize + j]`. -/
def Game.at (g : Game) (i j : Fin BoardSize) : Cell :=
  g.board (idx i j)

/-- The assignment `game.at(i, j) = cell` through the reference-returning
overload of `at`, for loop indices. -/
def Game.set (g : Game) (i j : Fin BoardSize) (cell : Cell) : Game :=
  ⟨Function.update g.board (idx i j) cell⟩

/-- The method `Game::newGameWith` as a transformer of the receiver: the first
component is the receiver after the call, the second the returned game.  The
body copies the receiver (`Game game = *this`), writes the copy and returns it. -/
def Game.newGameWithCall (this : Game) (i j : Fin BoardSize) (cell : Cell) : Game × Game :=
  let game := this
  let game := game.set i j cell
  (this, game)

/-- The value returned by `Game::newGameWith`. -/
def Game.newGameWith (g : Game) (i j : Fin BoardSize) (cell : Cell) : Game :=
  (g.newGameWithCall i j cell).2

/-- The least value of the type `int` (32 bits). -/
def intMin : Int := -2147483648

/-- The greatest value of the type `int` (32 bits). -/
def intMax : Int := 2147483647

/-- The index expression `i * BoardSize + j` of `at` is defined: the product
does not overflow `int` and the sum is an index of the array. -/
def validIndex (i j : Int) : Prop :=
  (intMin ≤ i * BoardSize ∧ i * BoardSize ≤ intMax) ∧
    (0 ≤ i * BoardSize + j ∧ i * BoardSize + j < BoardSize * BoardSize)

instance (i j : Int) : Decidable (validIndex i j) := by
  unfold validIndex
  infer_instance

/-- The array index denoted by a defined index expression. -/
def flatIndex (i j : Int) (h : validIndex i j) : Fin (BoardSize * BoardSize) :=
  ⟨(i * BoardSize + j).toNat, by
    have h2 := h.2
    simp only [BoardSize] at h2 ⊢
    omega⟩

/-- The accessor `Game::at(int i, int j)` on arbitrary `int` arguments: the
element `board[i * BoardSize + j]`.  No test is made on `i` or `j`; `none`
stands for undefined behaviour (signed overflow, or an index outside the
array), where nothing is thrown either. -/
def Game.atInt (g : Game) (i j : Int) : Option Cell :=
  if h : validIndex i j then some (g.board (flatIndex i j h)) else none

/-- The method `Game::newGameWith(int i, int j, Cell cell)` on arbitrary `int`
arguments: a copy of the receiver with `board[i * BoardSize + j]` overwritten.
No test is made on `i` or `j`; `none` stands for undefined behaviour. -/
def Game.newGameWithInt (g : Game) (i j : Int) (cell : Cell) : Option Game :=
  if h : validIndex i j then some ⟨Function.update g.board (flatIndex i j h) cell⟩ else none

/-! ## Rank scans -/

/-- The loop shared by the four rank methods, run over the cells of one line in
visiting order, with the running counter as accumulator: an empty cell is
skipped (`continue`), a cell different from `cell` ends the scan with `0`
(`return 0`), any other cell increments the counter. -/
def rankLoop (cell : Cell) : List Cell → Int → Int
  | [], rank => rank
  | c :: rest, rank =>
    if c = Cell.E then rankLoop cell rest rank
    else if c ≠ cell then 0
    else rankLoop cell rest (rank + 1)

/-- The column index `BoardSize - i - 1` used by `backDiagonalRank`. -/
def backIdx (i : Fin BoardSize) : Fin BoardSize :=
  ⟨BoardSize - i.val - 1, by
    have hi := i.isLt
    simp only [BoardSize] at hi ⊢
    omega⟩

/-- The method `Game::diagonalRank`: scans `at(i, i)` for `i = 0 .. 8`. -/
def Game.diagonalRank (g : Game) (cell : Cell) : Int :=
  rankLoop cell ((List.finRange BoardSize).map fun i => g.at i i) 0

/-- The method `Game::backDiagonalRank`: scans `at(i, BoardSize - i - 1)`. -/
def Game.backDiagonalRank (g : Game) (cell : Cell) : Int :=
  rankLoop cell ((List.finRange BoardSize).map fun i => g.at i (backIdx i)) 0

/-- The method `Game::rowRank`: scans `at(row, j)` for `j = 0 .. 8`. -/
def Game.rowRank (g : Game) (cell : Cell) (row : Fin BoardSize) : Int :=
  rankLoop cell ((List.finRange BoardSize).map fun j => g.at row j) 0

/-- The method `Game::columnRank`: scans `at(i, column)` for `i = 0 .. 8`. -/
def Game.columnRank (g : Game) (cell : Cell) (column : Fin BoardSize) : Int :=
  rankLoop cell ((List.finRange BoardSize).map fun i => g.at i column) 0

/-! ## Line traversal, `rate` and `winner` -/

/-- One `for` loop of `iterateOverLines`: the callback is applied to the ranks
in order; the callback maps the captured state and a rank to the new state and
its boolean result.  The second component is `false` when the callback returned
`false` (the `return` inside the loop was taken). -/
def forLines {σ : Type} (cb : σ → Int → σ × Bool) : List Int → σ → σ × Bool
  | [], s => (s, true)
  | r :: rest, s =>
    if (cb s r).2 then forLines cb rest (cb s r).1 else ((cb s r).1, false)

/-- The method `Game::iterateOverLines`: the callback sees the main diagonal,
the anti-diagonal, rows `0 .. 8`, columns `0 .. 8`, and the traversal returns at
the first call whose result is `false`.  The state captured by reference in the
C++ lambda is threaded through explicitly. -/
def Game.iterateOverLines {σ : Type} (g : Game) (cell : Cell)
    (cb : σ → Int → σ × Bool) (s : σ) : σ :=
  let r1 := cb s (g.diagonalRank cell)
  if !r1.2 then r1.1 else
  let r2 := cb r1.1 (g.backDiagonalRank cell)
  if !r2.2 then r2.1 else
  let r3 := forLines cb ((List.finRange BoardSize).map fun i => g.rowRank cell i) r2.1
  if !r3.2 then r3.1 else
  (forLines cb ((List.finRange BoardSize).map fun j => g.columnRank cell j) r3.1).1

/-- The lambda of `rate`: `boardRank += rank == BoardSize ? BoardSize * BoardSize
: rank; return true;`. -/
def rateCb (boardRank : Int) (rank : Int) : Int × Bool :=
  (boardRank + (if rank = (BoardSize : Int) then (BoardSize : Int) * BoardSize else rank), true)

/-- The method `Game::rate`. -/
def Game.rate (g : Game) (cell : Cell) : Int :=
  g.iterateOverLines cell rateCb 0

/-- The lambda of `winner`: `winner = rank == BoardSize; return !winner;`. -/
def winnerCb (_winner : Bool) (rank : Int) : Bool × Bool :=
  (decide (rank = BoardSize), !decide (rank = BoardSize))

/-- The method `Game::winner`. -/
def Game.winner (g : Game) (cell : Cell) : Bool :=
  g.iterateOverLines cell winnerCb false

/-! ## Move selection -/

/-- The struct `SimpleTurn`.  `i` and `j` are `none` while the locals `best_i`,
`best_j` they are copied from have never been assigned. -/
structure SimpleTurn where
  i : Option Int
  j : Option Int
  rate : Int
  deriving DecidableEq, Repr

/-- The struct `Turn`. -/
structure Turn where
  i : Option Int
  j : Option Int
  deriving DecidableEq, Repr

/-- The body of the inner loop of `find_best_simple` at indices `(i, j)`, acting
on the locals `best_i`, `best_j`, `best_rate` (held in a `SimpleTurn`). -/
def bestStep (game : Game) (cell : Cell) (best : SimpleTurn) (i j : Fin BoardSize) :
    SimpleTurn :=
  if game.at i j ≠ Cell.E then best
  else
    let local_game := game
    let local_game := local_game.set i j cell
    let local_rate := local_game.rate cell
    if local_rate > best.rate then
      ⟨some (i.val : Int), some (j.val : Int), local_game.rate cell⟩
    else best

/-- The function `find_best_simple`: `best_rate` starts at `-1`, `best_i` and
`best_j` start unassigned, the two nested loops run over rows then columns. -/
def find_best_simple (game : Game) (cell : Cell) : SimpleTurn :=
  (List.finRange BoardSize).foldl
    (fun best i => (List.finRange BoardSize).foldl (fun best j => bestStep game cell best i j) best)
    ⟨none, none, -1⟩

/-- The expression `cell == _::X ? _::O : _::X` of `find_best`. -/
def Cell.other (cell : Cell) : Cell :=
  if cell = Cell.X then Cell.O else Cell.X

/-- The function `find_best`. -/
def find_best (game : Game) (cell : Cell) : Turn :=
  let my := find_best_simple game cell
  let foe := find_best_simple game cell.other
  if foe.rate > my.rate then ⟨foe.i, foe.j⟩ else ⟨my.i, my.j⟩

/-! ## The driver loop of `main` -/

/-- The assignment `game.at(i, j) = turn` of `main`, through the
reference-returning overload of `at`, with the `int` coordinates returned by
`find_best`; `none` stands for undefined behaviour. -/
def Game.setInt (g : Game) (i j : Int) (cell : Cell) : Option Game :=
  if h : validIndex i j then some ⟨Function.update g.board (flatIndex i j h) cell⟩ else none

/-- The record of one executed pass through the body of the loop of `main`: the
board handed to `find_best`, the side to move, the coordinates returned by
`find_best`, and the board after `game.at(i, j) = turn`. -/
structure Played where
  before : Game
  turn : Cell
  i : Int
  j : Int
  after : Game

/-- The ways in which an execution of the loop of `main` can end: the loop is
left (by the loop condition, or by `break` when `byBreak` is true) with the
final values of `game`, `turn` and `iteration_limit`; or the behaviour is
undefined, because `find_best` returned unassigned coordinates or the write is
outside the array; or the fuel of the embedding ran out.  Every case carries the
passes executed so far. -/
inductive Run where
  | exited (game : Game) (turn : Cell) (iteration_limit : Int) (byBreak : Bool)
      (log : List Played)
  | undefined (log : List Played)
  | outOfFuel (log : List Played)

/-- The loop of `main`, one unit of fuel per evaluation of the loop condition.
`iteration_limit-- == 0` compares the value before the decrement. -/
def mainLoop : Nat → Game → Cell → Int → List Played → Run
  | 0, _, _, _, log => Run.outOfFuel log
  | fuel + 1, game, turn, iteration_limit, log =>
    if (!game.winner Cell.O && !game.winner Cell.X) = true then
      match (find_best game turn).i, (find_best game turn).j with
      | some i, some j =>
        match game.setInt i j turn with
        | some game' =>
          if iteration_limit = 0 then
            Run.exited game' turn (iteration_limit - 1) true
              (log ++ [⟨game, turn, i, j, game'⟩])
          else
            mainLoop fuel game' turn.other (iteration_limit - 1)
              (log ++ [⟨game, turn, i, j, game'⟩])
        | none => Run.undefined log
      | _, _ => Run.undefined log
    else Run.exited game turn iteration_limit false log

/-- The function `main` with the initial value of `iteration_limit` as a
parameter: `Game game; auto turn = _::O;` followed by the loop. -/
def mainRun (iteration_limit : Int) (fuel : Nat) : Run :=
  mainLoop fuel Game.init Cell.O iteration_limit []

/-- The initial value of `iteration_limit` in `main`. -/
def mainLimit : Int := 50

/-! ## Vocabulary for stating properties -/

/-- The 20 lines of the board. -/
inductive Line where
  | diagonal
  | backDiagonal
  | row (i : Fin BoardSize)
  | column (j : Fin BoardSize)
  deriving DecidableEq, Repr

/-- The coordinates of the `k`-th cell read by the rank scan of a line. -/
def Line.coord : Line → Fin BoardSize → Fin BoardSize × Fin BoardSize
  | Line.diagonal, k => (k, k)
  | Line.backDiagonal, k => (k, backIdx k)
  | Line.row i, k => (i, k)
  | Line.column j, k => (k, j)

/-- The rank method that belongs to a line. -/
def Game.rankOf (g : Game) (cell : Cell) : Line → Int
  | Line.diagonal => g.diagonalRank cell
  | Line.backDiagonal => g.backDiagonalRank cell
  | Line.row i => g.rowRank cell i
  | Line.column j => g.columnRank cell j

/-- The content of the `k`-th cell of a line. -/
def Game.lineCell (g : Game) (l : Line) (k : Fin BoardSize) : Cell :=
  g.at (l.coord k).1 (l.coord k).2

/-- The cells of a line, in scan order. -/
def Game.lineCells (g : Game) (l : Line) : List Cell :=
  (List.finRange BoardSize).map (g.lineCell l)

/-- The lines in the order in which `iterateOverLines` passes their ranks to the
callback. -/
def allLines : List Line :=
  Line.diagonal :: Line.backDiagonal ::
    ((List.finRange BoardSize).map Line.row ++ (List.finRange BoardSize).map Line.column)

/-- The per-line summand of `rate`. -/
def contribution (rank : Int) : Int :=
  if rank = (BoardSize : Int) then (BoardSize : Int) * BoardSize else rank

/-- The board cells in the order of the nested loops of `find_best_simple`. -/
def allCoords : List (Fin BoardSize × Fin BoardSize) :=
  (List.finRange BoardSize).flatMap fun i => (List.finRange BoardSize).map fun j => (i, j)

/-- Row-major (lexicographic) order on coordinates. -/
def lexLt (p q : Fin BoardSize × Fin BoardSize) : Prop :=
  p.1 < q.1 ∨ (p.1 = q.1 ∧ p.2 < q.2)

/-- A callback for `iterateOverLines` that records every rank it is called with
and always asks the traversal to continue (the shape of the lambda of `rate`). -/
def traceCb (seen : List Int) (rank : Int) : List Int × Bool :=
  (seen ++ [rank], true)

/-- The opposing side of a side: X for O and O for X. -/
def Cell.opponent : Cell → Cell
  | Cell.O => Cell.X
  | Cell.X => Cell.O
  | Cell.E => Cell.E

/-- The score reached by marking the empty cell `p` for `s`, as computed inside
the loops of `find_best_simple`. -/
def moveRate (g : Game) (s : Cell) (p : Fin BoardSize × Fin BoardSize) : Int :=
  (g.set p.1 p.2 s).rate s

/-- A board whose main diagonal is held by O and whose other cells are empty. -/
def diagBoard : Game :=
  ⟨fun k => if k.val / BoardSize = k.val % BoardSize then Cell.O else Cell.E⟩

/-- A board without empty cells and without a completed line: cell `(i, j)` is
O when `(i + 2 * j) % 5 < 2` and X otherwise. -/
def fullBoard : Game :=
  ⟨fun k => if (k.val / BoardSize + 2 * (k.val % BoardSize)) % 5 < 2 then Cell.O else Cell.X⟩

/-- A board with a single mark, X in cell `(1, 0)`. -/
def markedBoard : Game :=
  Game.init.set 1 0 Cell.X

/-- The sum of the contributions to `rate` of the lines that `s` has not
completed (the lines whose rank is not `BoardSize`). -/
def partialSum (g : Game) (s : Cell) : Int :=
  ((allLines.filter fun l => decide (g.rankOf s l ≠ (BoardSize : Int))).map
    fun l => contribution (g.rankOf s l)).sum

/-- A board on which O holds every cell off the main diagonal and the main
diagonal is empty. -/
def openDiagBoard : Game :=
  ⟨fun k => if k.val / BoardSize = k.val % BoardSize then Cell.E else Cell.O⟩

/-- The board `fullBoard` with cell `(3, 5)` emptied: a board with exactly one
empty cell. -/
def oneEmptyBoard : Game :=
  fullBoard.set 3 5 Cell.E

/-- A board on which O holds cells `(0, 0)` to `(0, 7)` and every other cell
is empty: marking `(0, 8)` completes row 0 for O. -/
def nearWinBoard : Game :=
  ⟨fun k => if k.val < 8 then Cell.O else Cell.E⟩

/-! ## Output -/

/-- The function `cellToStr`. -/
def cellToStr : Cell → String
  | Cell.O => "O"
  | Cell.E => "_"
  | Cell.X => "X"

/-- The function `print`, as the text it writes to standard output: for
`i = 0 .. 8` the cells `at(BoardSize - i - 1, j)` for `j = 0 .. 8`, each through
`cellToStr`, followed by a line feed. -/
def print (game : Game) : String :=
  (List.finRange BoardSize).foldl
    (fun out i =>
      (List.finRange BoardSize).foldl
        (fun out j => out ++ cellToStr (game.at (backIdx i) j)) out ++ "\n")
    ""

/-- The character that stands for a cell in the output. -/
def cellChar : Cell → Char
  | Cell.E => '_'
  | Cell.O => 'O'
  | Cell.X => 'X'

/-- The characters of the `k`-th line of the output: row `8 - k` of the board,
columns `0 .. 8` from left to right. -/
def printedRow (game : Game) (k : Fin BoardSize) : List Char :=
  (List.finRange BoardSize).map fun j =>
    cellChar (game.at ⟨8 - k.val, by simp only [BoardSize]; omega⟩ j)

/-- The number of cells of the board with content `c`. -/
def Game.count (g : Game) (c : Cell) : Nat :=
  (allCoords.map fun p => g.at p.1 p.2).count c

/-- The side that makes move number `k` (counted from 0): O for even `k`. -/
def sideOf (k : Nat) : Cell :=
  if k % 2 = 0 then Cell.O else Cell.X

/-- What holds of pass number `k` (counted from 0) of the loop of `main`: the
side to move, the numbers of O and X cells on the board handed to `find_best`,
no completed line on that board, the coordinates are those returned by
`find_best`, they are loop indices of an empty cell, and the board afterwards is
the board with that cell marked. -/
def EntryOK (k : Nat) (e : Played) : Prop :=
  e.turn = sideOf k ∧
  e.before.count Cell.O = (k + 1) / 2 ∧ e.before.count Cell.X = k / 2 ∧
  e.before.winner Cell.O = false ∧ e.before.winner Cell.X = false ∧
  find_best e.before e.turn = ⟨some e.i, some e.j⟩ ∧
  ∃ i j : Fin BoardSize, e.i = (i.val : Int) ∧ e.j = (j.val : Int) ∧
    e.before.at i j = Cell.E ∧ e.after = e.before.set i j e.turn

/-- Every pass of a log satisfies `EntryOK` at its position. -/
def LogOK (log : List Played) : Prop :=
  ∀ (k : Nat) (e : Played), log[k]? = some e → EntryOK k e

/-- The passes of a log follow one another: the first starts on the board
`start`, and each later pass starts on the board left by the pass before. -/
def Chained : Game → List Played → Prop
  | _, [] => True
  | start, e :: rest => e.before = start ∧ Chained e.after rest

/-- The board left by the last pass of a log, or `start` when the log is empty. -/
def lastBoard : Game → List Played → Game
  | start, [] => start
  | _, e :: rest => lastBoard e.after rest

/-! ## Evaluating `find_best_simple` from per-line data -/

/-- A board given by two bit masks: cell number `k` is O when bit `k` of `o`
is set, X when bit `k` of `x` is set (and that of `o` is not), empty otherwise. -/
def Game.ofMasks (o x : Nat) : Game :=
  ⟨fun k => if o.testBit k.val then Cell.O else if x.testBit k.val then Cell.X else Cell.E⟩

/-- A line holds a cell that is neither empty nor `s`. -/
def blockedFor (g : Game) (s : Cell) (l : Line) : Bool :=
  (g.lineCells l).any fun c => decide (c ≠ Cell.E) && decide (c ≠ s)

/-- The change of the contribution of a line to `rate(s)` when an empty cell of
the line is marked for `s`. -/
def lineGain (g : Game) (s : Cell) (l : Line) : Int :=
  if blockedFor g s l then 0
  else contribution (g.rankOf s l + 1) - contribution (g.rankOf s l)

/-- The score of a board for a side together with the gains of the 20 lines. -/
structure GainTable where
  base : Int
  diag : Int
  back : Int
  rows : List Int
  cols : List Int
  deriving DecidableEq, Repr

/-- The score and the line gains of a board for a side. -/
def gainTable (g : Game) (s : Cell) : GainTable :=
  ⟨g.rate s, lineGain g s Line.diagonal, lineGain g s Line.backDiagonal,
    (List.finRange BoardSize).map fun i => lineGain g s (Line.row i),
    (List.finRange BoardSize).map fun j => lineGain g s (Line.column j)⟩

/-- The score after marking an empty cell, from the score before and the gains
of the lines through the cell. -/
def quickRate (t : GainTable) (p : Fin BoardSize × Fin BoardSize) : Int :=
  t.base + t.rows.getD p.1.val 0 + t.cols.getD p.2.val 0 +
    (if p.1 = p.2 then t.diag else 0) + (if p.2 = backIdx p.1 then t.back else 0)

/-- The loop body of `find_best_simple` with the score taken from a table. -/
def quickStep (g : Game) (t : GainTable) (best : SimpleTurn)
    (p : Fin BoardSize × Fin BoardSize) : SimpleTurn :=
  if g.at p.1 p.2 ≠ Cell.E then best
  else if quickRate t p > best.rate then
    ⟨some (p.1.val : Int), some (p.2.val : Int), quickRate t p⟩
  else best

/-- The loops of `find_best_simple` with the scores taken from a table. -/
def quickFind (g : Game) (t : GainTable) : SimpleTurn :=
  allCoords.foldl (quickStep g t) ⟨none, none, -1⟩

/-- The choice made by `find_best` between the two results. -/
def quickBest (g : Game) (mine foe : GainTable) : Turn :=
  if (quickFind g foe).rate > (quickFind g mine).rate then
    ⟨(quickFind g foe).i, (quickFind g foe).j⟩
  else ⟨(quickFind g mine).i, (quickFind g mine).j⟩

/-- Every line of the board holds both an O and an X. -/
def Game.dead (g : Game) : Bool :=
  allLines.all fun l =>
    (g.lineCells l).any (fun c => decide (c = Cell.O)) &&
      (g.lineCells l).any (fun c => decide (c = Cell.X))

/-- A line passes through a cell. -/
def Line.through (l : Line) (p : Fin BoardSize × Fin BoardSize) : Bool :=
  match l with
  | Line.diagonal => decide (p.1 = p.2)
  | Line.backDiagonal => decide (p.2 = backIdx p.1)
  | Line.row i => decide (p.1 = i)
  | Line.column j => decide (p.2 = j)

/-! ## Rank scans: characterisation -/

/-- A scan that meets a cell which is neither empty nor `s` yields `0`. -/
theorem rankLoop_blocked (s : Cell) (cs : List Cell) (acc : Int)
    (h : ∃ c ∈ cs, c ≠ Cell.E ∧ c ≠ s) : rankLoop s cs acc = 0 := by
  induction cs generalizing acc with
  | nil => simp at h
  | cons c rest ih =>
    unfold rankLoop
    by_cases hE : c = Cell.E
    · rw [if_pos hE]
      apply ih
      obtain ⟨d, hd, hd1, hd2⟩ := h
      rcases List.mem_cons.mp hd with rfl | hd
      · exact absurd hE hd1
      · exact ⟨d, hd, hd1, hd2⟩
    · rw [if_neg hE]
      by_cases hc : c = s
      · rw [if_neg (not_not.mpr hc)]
        apply ih
        obtain ⟨d, hd, hd1, hd2⟩ := h
        rcases List.mem_cons.mp hd with rfl | hd
        · exact absurd hc hd2
        · exact ⟨d, hd, hd1, hd2⟩
      · rw [if_pos hc]

/-- A scan over cells that are all empty or `s` counts the cells equal to `s`. -/
theorem rankLoop_clear (s : Cell) (hs : s ≠ Cell.E) (cs : List Cell) (acc : Int)
    (h : ∀ c ∈ cs, c = Cell.E ∨ c = s) : rankLoop s cs acc = acc + (cs.count s : Int) := by
  induction cs generalizing acc with
  | nil => simp [rankLoop]
  | cons c rest ih =>
    have hrest : ∀ d ∈ rest, d = Cell.E ∨ d = s := fun d hd => h d (List.mem_cons_of_mem _ hd)
    unfold rankLoop
    rcases h c (List.mem_cons_self _ _) with hE | hc
    · subst hE
      rw [if_pos rfl, ih acc hrest, List.count_cons_of_ne hs]
    · subst hc
      rw [if_neg hs, if_neg (not_not.mpr rfl), ih (acc + 1) hrest, List.count_cons_self]
      push_cast
      ring

/-- Every rank method is the shared scan over the cells of its line. -/
theorem rankOf_eq_rankLoop (g : Game) (s : Cell) (l : Line) :
    g.rankOf s l = rankLoop s (g.lineCells l) 0 := by
  cases l <;> rfl

/-- For the two sides, a cell that is neither empty nor `s` is the other side. -/
theorem ne_iff_opponent (s c : Cell) (hs : s = Cell.O ∨ s = Cell.X) :
    (c ≠ Cell.E ∧ c ≠ s) ↔ c = s.opponent := by
  rcases hs with rfl | rfl <;> cases c <;> simp [Cell.opponent]

/-- The expression of `find_best` for the other side yields the opposing side. -/
theorem other_eq_opponent (s : Cell) (hs : s = Cell.O ∨ s = Cell.X) :
    s.other = s.opponent := by
  rcases hs with rfl | rfl <;> rfl

/-- The scan of a line has exactly `BoardSize` cells. -/
theorem lineCells_length (g : Game) (l : Line) : (g.lineCells l).length = BoardSize := by
  simp [Game.lineCells]

/-- Membership in the cells of a line. -/
theorem mem_lineCells (g : Game) (l : Line) (c : Cell) :
    c ∈ g.lineCells l ↔ ∃ k, g.lineCell l k = c := by
  simp [Game.lineCells]

/-- C1: for every board, every side `s` in {O, X} and every one of the 20 lines,
the rank computed by the line's rank method is 0 when some cell of the line is
held by the opposing side, and otherwise is the number of cells of the line held
by `s` (empty cells are skipped and not counted). -/
theorem rank_spec (g : Game) (s : Cell) (hs : s = Cell.O ∨ s = Cell.X) (l : Line) :
    ((∃ k, g.lineCell l k = s.opponent) → g.rankOf s l = 0) ∧
    ((∀ k, g.lineCell l k ≠ s.opponent) →
      g.rankOf s l = (((g.lineCells l).count s : Nat) : Int)) := by
  have hsE : s ≠ Cell.E := by rcases hs with rfl | rfl <;> decide
  constructor
  · rintro ⟨k, hk⟩
    rw [rankOf_eq_rankLoop]
    apply rankLoop_blocked
    exact ⟨g.lineCell l k, (mem_lineCells g l _).mpr ⟨k, rfl⟩, (ne_iff_opponent s _ hs).mpr hk⟩
  · intro h
    rw [rankOf_eq_rankLoop, rankLoop_clear s hsE _ 0, zero_add]
    intro c hc
    obtain ⟨k, rfl⟩ := (mem_lineCells g l c).mp hc
    by_contra hcon
    push_neg at hcon
    exact h k ((ne_iff_opponent s _ hs).mp hcon)

/-! ## The traversal as one pass over the 20 lines -/

/-- Two consecutive loops of the traversal act as one loop over the joined
sequence of ranks. -/
theorem forLines_append {σ : Type} (cb : σ → Int → σ × Bool) (xs ys : List Int) (s : σ) :
    forLines cb (xs ++ ys) s =
      if (forLines cb xs s).2 then forLines cb ys (forLines cb xs s).1
      else ((forLines cb xs s).1, false) := by
  induction xs generalizing s with
  | nil => simp [forLines]
  | cons x rest ih =>
    simp only [List.cons_append, forLines]
    by_cases h : (cb s x).2 = true
    · simp only [h, if_true]
      exact ih _
    · simp [h]

/-- The body of `iterateOverLines` over arbitrary rank sequences for the two
loops. -/
theorem iterate_body_eq {σ : Type} (cb : σ → Int → σ × Bool) (st : σ) (d b : Int)
    (rows cols : List Int) :
    (if !(cb st d).2 then (cb st d).1 else
      if !(cb (cb st d).1 b).2 then (cb (cb st d).1 b).1 else
        if !(forLines cb rows (cb (cb st d).1 b).1).2 then
          (forLines cb rows (cb (cb st d).1 b).1).1
        else (forLines cb cols (forLines cb rows (cb (cb st d).1 b).1).1).1) =
      (forLines cb (d :: b :: (rows ++ cols)) st).1 := by
  simp only [forLines, forLines_append]
  by_cases h1 : (cb st d).2 = true
  · by_cases h2 : (cb (cb st d).1 b).2 = true
    · by_cases h3 : (forLines cb rows (cb (cb st d).1 b).1).2 = true
      · simp [h1, h2, h3]
      · simp [h1, h2, h3]
    · simp [h1, h2]
  · simp [h1]

/-- The ranks handed to the callback are those of `allLines`, in that order. -/
theorem iterateOverLines_eq {σ : Type} (g : Game) (s : Cell) (cb : σ → Int → σ × Bool)
    (st : σ) :
    g.iterateOverLines s cb st = (forLines cb (allLines.map (g.rankOf s)) st).1 := by
  have hall : allLines.map (g.rankOf s) =
      g.diagonalRank s :: g.backDiagonalRank s ::
        ((List.finRange BoardSize).map (fun i => g.rowRank s i) ++
          (List.finRange BoardSize).map (fun j => g.columnRank s j)) := by
    unfold allLines
    rw [List.map_cons, List.map_cons, List.map_append, List.map_map, List.map_map]
    rfl
  rw [hall, ← iterate_body_eq]
  rfl

/-- There are 20 lines, each listed once. -/
theorem allLines_length : allLines.length = 20 := by decide

/-- Every line occurs in `allLines`. -/
theorem mem_allLines (l : Line) : l ∈ allLines := by
  cases l <;> simp [allLines, List.mem_finRange]

/-- No line occurs twice in `allLines`. -/
theorem allLines_nodup : allLines.Nodup := by decide

/-! ## `winner` -/

/-- Over ranks, the lambda of `winner` ends with `true` exactly when some rank
equals `BoardSize`. -/
theorem forLines_winnerCb (rs : List Int) :
    (forLines winnerCb rs false).1 = true ↔ ∃ r ∈ rs, r = (BoardSize : Int) := by
  induction rs with
  | nil => simp [forLines]
  | cons r rest ih =>
    unfold forLines
    by_cases h : r = (BoardSize : Int)
    · simp [winnerCb, h]
    · simp only [winnerCb, h, decide_False, Bool.not_false, if_true, List.mem_cons,
        exists_eq_or_imp, false_or]
      exact ih

/-- A scan over `BoardSize` cells reaches `BoardSize` exactly when every cell is
held by the side. -/
theorem rankLoop_eq_size (s : Cell) (hs : s ≠ Cell.E) (cs : List Cell)
    (hlen : cs.length = BoardSize) :
    rankLoop s cs 0 = (BoardSize : Int) ↔ ∀ c ∈ cs, c = s := by
  by_cases hb : ∃ c ∈ cs, c ≠ Cell.E ∧ c ≠ s
  · rw [rankLoop_blocked s cs 0 hb]
    constructor
    · intro h
      simp [BoardSize] at h
    · intro h
      obtain ⟨c, hc, _, hc2⟩ := hb
      exact absurd (h c hc) hc2
  · have hclear : ∀ c ∈ cs, c = Cell.E ∨ c = s := by
      intro c hc
      by_contra hcon
      push_neg at hcon
      exact hb ⟨c, hc, hcon.1, hcon.2⟩
    rw [rankLoop_clear s hs cs 0 hclear, zero_add]
    constructor
    · intro h
      have h2 : cs.count s = cs.length := by
        rw [hlen]
        exact_mod_cast h
      intro c hc
      exact ((List.count_eq_length.mp h2) c hc).symm
    · intro h
      have h2 : cs.count s = cs.length :=
        List.count_eq_length.mpr (fun c hc => (h c hc).symm)
      rw [h2, hlen]

/-- A line has rank `BoardSize` for a side exactly when the side holds all of
its cells. -/
theorem rankOf_eq_size (g : Game) (s : Cell) (hs : s ≠ Cell.E) (l : Line) :
    g.rankOf s l = (BoardSize : Int) ↔ ∀ k, g.lineCell l k = s := by
  rw [rankOf_eq_rankLoop, rankLoop_eq_size s hs _ (lineCells_length g l)]
  constructor
  · intro h k
    exact h _ ((mem_lineCells g l _).mpr ⟨k, rfl⟩)
  · intro h c hc
    obtain ⟨k, rfl⟩ := (mem_lineCells g l c).mp hc
    exact h k

/-- For a side, `winner` holds exactly when the side holds all cells of a line. -/
theorem winner_iff (g : Game) (s : Cell) (hs : s ≠ Cell.E) :
    g.winner s = true ↔ ∃ l : Line, ∀ k, g.lineCell l k = s := by
  unfold Game.winner
  rw [iterateOverLines_eq, forLines_winnerCb]
  constructor
  · rintro ⟨r, hr, hr9⟩
    obtain ⟨l, _, rfl⟩ := List.mem_map.mp hr
    exact ⟨l, (rankOf_eq_size g s hs l).mp hr9⟩
  · rintro ⟨l, hl⟩
    exact ⟨g.rankOf s l, List.mem_map.mpr ⟨l, mem_allLines l, rfl⟩,
      (rankOf_eq_size g s hs l).mpr hl⟩

/-- C2: for every board and every side `s` in {O, X}, `winner(s)` is true if and
only if one of the 20 lines has all 9 cells held by `s`; in particular, when the
main diagonal is entirely O and X completes no line, `winner(O)` is true and
`winner(X)` is false. -/
theorem winner_spec (g : Game) (s : Cell) (hs : s = Cell.O ∨ s = Cell.X) :
    (g.winner s = true ↔ ∃ l ∈ allLines, ∀ k, g.lineCell l k = s) ∧
    ((∀ k, g.lineCell Line.diagonal k = Cell.O) →
      (¬ ∃ l ∈ allLines, ∀ k, g.lineCell l k = Cell.X) →
      g.winner Cell.O = true ∧ g.winner Cell.X = false) := by
  have hsE : s ≠ Cell.E := by rcases hs with rfl | rfl <;> decide
  refine ⟨?_, ?_⟩
  · rw [winner_iff g s hsE]
    constructor
    · rintro ⟨l, hl⟩
      exact ⟨l, mem_allLines l, hl⟩
    · rintro ⟨l, _, hl⟩
      exact ⟨l, hl⟩
  · intro hd hx
    refine ⟨(winner_iff g Cell.O (by decide)).mpr ⟨Line.diagonal, hd⟩, ?_⟩
    cases hw : g.winner Cell.X
    · rfl
    · exfalso
      obtain ⟨l, hl⟩ := (winner_iff g Cell.X (by decide)).mp hw
      exact hx ⟨l, mem_allLines l, hl⟩

/-! ## `rate` -/

/-- Over ranks, the lambda of `rate` adds up the per-line contributions. -/
theorem forLines_rateCb (rs : List Int) (acc : Int) :
    (forLines rateCb rs acc).1 = acc + (rs.map contribution).sum := by
  induction rs generalizing acc with
  | nil => simp [forLines]
  | cons r rest ih =>
    unfold forLines
    simp only [rateCb, if_true, List.map_cons, List.sum_cons]
    rw [ih]
    unfold contribution
    ring

/-- A callback that always continues is called with every rank, in order. -/
theorem forLines_traceCb (rs : List Int) (seen : List Int) :
    (forLines traceCb rs seen).1 = seen ++ rs := by
  induction rs generalizing seen with
  | nil => simp [forLines]
  | cons r rest ih =>
    unfold forLines
    simp only [traceCb, if_true]
    rw [ih]
    simp

/-- The score is the sum of the contributions of the 20 lines. -/
theorem rate_eq_sum (g : Game) (s : Cell) :
    g.rate s = (allLines.map fun l => contribution (g.rankOf s l)).sum := by
  unfold Game.rate
  rw [iterateOverLines_eq, forLines_rateCb, zero_add, List.map_map]
  rfl

/-- C3: for every board and side `s`, `rate(s)` is the sum over the 20 lines of
the contribution `81` for a line of rank 9 and the rank otherwise; a callback
that always continues is called once per line, in the order of `allLines`, which
lists each of the 20 lines exactly once; and the sum is the same for every
order in which the 20 lines are summed. -/
theorem rate_spec (g : Game) (s : Cell) :
    g.rate s = (allLines.map fun l => contribution (g.rankOf s l)).sum ∧
    (∀ r : Int, contribution r = if r = 9 then 81 else r) ∧
    g.iterateOverLines s traceCb [] = allLines.map (g.rankOf s) ∧
    allLines.length = 20 ∧ allLines.Nodup ∧ (∀ l : Line, l ∈ allLines) ∧
    (∀ ls : List Line, ls.Perm allLines →
      (ls.map fun l => contribution (g.rankOf s l)).sum = g.rate s) := by
  refine ⟨rate_eq_sum g s, ?_, ?_, allLines_length, allLines_nodup, mem_allLines, ?_⟩
  · intro r
    simp [contribution, BoardSize]
  · rw [iterateOverLines_eq, forLines_traceCb, List.nil_append]
  · intro ls hperm
    rw [rate_eq_sum]
    exact (hperm.map _).sum_eq

/-! ## Cell access and `newGameWith` -/

/-- The flat index determines the pair of loop indices. -/
theorem idx_injective (i j i' j' : Fin BoardSize) (h : idx i' j' = idx i j) :
    i' = i ∧ j' = j := by
  have h1 : i'.val * BoardSize + j'.val = i.val * BoardSize + j.val := by
    have := congrArg Fin.val h
    simpa [idx] using this
  have hi := i.isLt
  have hj := j.isLt
  have hi' := i'.isLt
  have hj' := j'.isLt
  simp only [BoardSize] at h1 hi hj hi' hj'
  constructor
  · apply Fin.ext; omega
  · apply Fin.ext; omega

/-- Reading the written cell. -/
theorem set_at_same (g : Game) (i j : Fin BoardSize) (c : Cell) :
    (g.set i j c).at i j = c := by
  simp [Game.set, Game.at]

/-- Reading any other cell after a write. -/
theorem set_at_other (g : Game) (i j i' j' : Fin BoardSize) (c : Cell)
    (h : (i', j') ≠ (i, j)) : (g.set i j c).at i' j' = g.at i' j' := by
  have hne : idx i' j' ≠ idx i j := by
    intro heq
    obtain ⟨h1, h2⟩ := idx_injective i j i' j' heq
    exact h (by rw [h1, h2])
  simp [Game.set, Game.at, Function.update_noteq hne]

/-- The index expression is defined on loop indices. -/
theorem validIndex_coe (i j : Fin BoardSize) : validIndex (i.val : Int) (j.val : Int) := by
  have hi := i.isLt
  have hj := j.isLt
  simp only [BoardSize] at hi hj
  unfold validIndex intMin intMax
  simp only [BoardSize]
  push_cast
  omega

/-- On loop indices the index expression denotes `idx`. -/
theorem flatIndex_coe (i j : Fin BoardSize) (h : validIndex (i.val : Int) (j.val : Int)) :
    flatIndex (i.val : Int) (j.val : Int) h = idx i j := by
  apply Fin.ext
  simp only [flatIndex, idx, BoardSize]
  omega

/-- On loop indices the `int` accessor returns the cell read by `Game.at`. -/
theorem atInt_coe (g : Game) (i j : Fin BoardSize) :
    g.atInt (i.val : Int) (j.val : Int) = some (g.at i j) := by
  unfold Game.atInt Game.at
  rw [dif_pos (validIndex_coe i j), flatIndex_coe]

/-- On loop indices the `int` version of `newGameWith` returns the game built by
`Game.newGameWith`. -/
theorem newGameWithInt_coe (g : Game) (i j : Fin BoardSize) (c : Cell) :
    g.newGameWithInt (i.val : Int) (j.val : Int) c = some (g.newGameWith i j c) := by
  unfold Game.newGameWithInt Game.newGameWith Game.newGameWithCall Game.set
  rw [dif_pos (validIndex_coe i j), flatIndex_coe]

/-- C9: for every board `b`, every in-range coordinate `(i, j)` and every cell
value `c`, whatever the content of `(i, j)`, `newGameWith(i, j, c)` returns a
board whose cell `(i, j)` is `c` and whose other cells equal those of `b`, and
the receiver is the same board after the call as before, so that `b.at(i, j)`
keeps its value. -/
theorem newGameWith_frame (b : Game) (i j : Fin BoardSize) (c : Cell) :
    (b.newGameWithCall i j c).2.at i j = c ∧
    (∀ i' j', (i', j') ≠ (i, j) → (b.newGameWithCall i j c).2.at i' j' = b.at i' j') ∧
    (b.newGameWithCall i j c).1 = b ∧
    (b.newGameWithCall i j c).1.at i j = b.at i j ∧
    b.newGameWithInt (i.val : Int) (j.val : Int) c = some (b.newGameWithCall i j c).2 := by
  refine ⟨set_at_same b i j c, ?_, rfl, rfl, newGameWithInt_coe b i j c⟩
  intro i' j' h
  exact set_at_other b i j i' j' c h

/-- C8, refuted as stated: on the board whose only mark is X in cell `(1, 0)`,
`at(0, 9)` does not fail but returns X, the content of cell `(1, 0)`, and
`newGameWith(0, 9, O)` does not fail but returns a board whose cell `(1, 0)`
is O. -/
theorem at_out_of_range_returns :
    markedBoard.at 1 0 = Cell.X ∧
    markedBoard.atInt 0 9 = some Cell.X ∧
    (markedBoard.newGameWithInt 0 9 Cell.O).map (fun g => g.at 1 0) = some Cell.O := by
  decide

/-- C8, amended: `at(row, col)` and `newGameWith(row, col, side)` test neither
`row` nor `col`; whenever `row * 9` is representable as an `int` and the flat
index `row * 9 + col` lies in `[0, 81)`, `at` returns the array element at that
index and `newGameWith` returns the copy with that element overwritten, and
neither fails. -/
theorem at_unchecked (g : Game) (row col : Int) (side : Cell)
    (hrep : -2147483648 ≤ row * 9 ∧ row * 9 ≤ 2147483647)
    (h : 0 ≤ row * 9 + col ∧ row * 9 + col < 81) :
    ∃ k : Fin (BoardSize * BoardSize), (k.val : Int) = row * 9 + col ∧
      g.atInt row col = some (g.board k) ∧
      g.newGameWithInt row col side = some ⟨Function.update g.board k side⟩ := by
  have hv : validIndex row col := by
    unfold validIndex intMin intMax
    simp only [BoardSize]
    push_cast
    omega
  refine ⟨flatIndex row col hv, ?_, ?_, ?_⟩
  · simp only [flatIndex, BoardSize]
    push_cast
    omega
  · unfold Game.atInt
    rw [dif_pos hv]
  · unfold Game.newGameWithInt
    rw [dif_pos hv]

/-- Witness for `at_unchecked`: the pair `(0, 9)` on the board with X in `(1, 0)`. -/
theorem at_unchecked_witness :
    (-2147483648 ≤ (0 : Int) * 9 ∧ (0 : Int) * 9 ≤ 2147483647) ∧
    (0 ≤ (0 : Int) * 9 + 9 ∧ (0 : Int) * 9 + 9 < 81) ∧
    ∃ k : Fin (BoardSize * BoardSize), (k.val : Int) = (0 : Int) * 9 + 9 ∧
      markedBoard.atInt 0 9 = some (markedBoard.board k) ∧
      markedBoard.newGameWithInt 0 9 Cell.O =
        some ⟨Function.update markedBoard.board k Cell.O⟩ :=
  ⟨by decide, by decide, at_unchecked markedBoard 0 9 Cell.O (by decide) (by decide)⟩

/-! ## `find_best` -/

/-- C6: for every board and every side `s` in {O, X}, `find_best` evaluates
`find_best_simple` for `s` and for the opposing side on the same board, and
returns the opponent's best cell when the opponent's best rate is strictly
greater than the own best rate, and the own best cell otherwise (also when the
two rates are equal). -/
theorem find_best_spec (g : Game) (s : Cell) (hs : s = Cell.O ∨ s = Cell.X) :
    ((find_best_simple g s.opponent).rate > (find_best_simple g s).rate →
      find_best g s = ⟨(find_best_simple g s.opponent).i, (find_best_simple g s.opponent).j⟩) ∧
    ((find_best_simple g s.opponent).rate ≤ (find_best_simple g s).rate →
      find_best g s = ⟨(find_best_simple g s).i, (find_best_simple g s).j⟩) := by
  unfold find_best
  rw [other_eq_opponent s hs]
  constructor
  · intro h
    simp only [if_pos h]
  · intro h
    simp only [if_neg (not_lt.mpr h)]

/-! ## Bounds and monotonicity of ranks and of `rate` -/

/-- A scan started from a non-negative counter is non-negative. -/
theorem rankLoop_nonneg (s : Cell) (cs : List Cell) (acc : Int) (hacc : 0 ≤ acc) :
    0 ≤ rankLoop s cs acc := by
  induction cs generalizing acc with
  | nil => simpa [rankLoop] using hacc
  | cons c rest ih =>
    unfold rankLoop
    split
    · exact ih acc hacc
    · split
      · exact le_refl 0
      · exact ih (acc + 1) (by omega)

/-- A scan adds at most one per cell. -/
theorem rankLoop_le (s : Cell) (cs : List Cell) (acc : Int) (hacc : 0 ≤ acc) :
    rankLoop s cs acc ≤ acc + (cs.length : Int) := by
  induction cs generalizing acc with
  | nil => simp [rankLoop]
  | cons c rest ih =>
    unfold rankLoop
    simp only [List.length_cons]
    push_cast
    split
    · have := ih acc hacc
      omega
    · split
      · omega
      · have := ih (acc + 1) (by omega)
        omega

/-- Every rank lies between `0` and `BoardSize`. -/
theorem rankOf_bounds (g : Game) (s : Cell) (l : Line) :
    0 ≤ g.rankOf s l ∧ g.rankOf s l ≤ 9 := by
  rw [rankOf_eq_rankLoop]
  constructor
  · exact rankLoop_nonneg s _ 0 (le_refl 0)
  · have h := rankLoop_le s (g.lineCells l) 0 (le_refl 0)
    rw [lineCells_length] at h
    simp only [BoardSize] at h
    push_cast at h
    omega

/-- Turning empty cells of a line into cells of `s` does not lower the scan. -/
theorem rankLoop_mono_map {α : Type} (s : Cell) (hs : s ≠ Cell.E) (f f' : α → Cell)
    (hrel : ∀ k, f' k = f k ∨ (f k = Cell.E ∧ f' k = s)) (ks : List α) (acc acc' : Int)
    (hacc : acc ≤ acc') :
    rankLoop s (ks.map f) acc ≤ rankLoop s (ks.map f') acc' := by
  induction ks generalizing acc acc' with
  | nil => simpa [rankLoop] using hacc
  | cons k rest ih =>
    simp only [List.map_cons]
    rcases hrel k with heq | ⟨hE, hs'⟩
    · rw [heq]
      unfold rankLoop
      split
      · exact ih acc acc' hacc
      · split
        · exact le_refl 0
        · exact ih (acc + 1) (acc' + 1) (by omega)
    · rw [hE, hs']
      unfold rankLoop
      rw [if_pos rfl, if_neg hs, if_neg (not_not.mpr rfl)]
      exact ih acc (acc' + 1) (by omega)

/-- The cells of a line after an empty cell was marked for `s`. -/
theorem lineCell_set (g : Game) (s : Cell) (i j : Fin BoardSize) (hE : g.at i j = Cell.E)
    (l : Line) (k : Fin BoardSize) :
    (g.set i j s).lineCell l k = g.lineCell l k ∨
      (g.lineCell l k = Cell.E ∧ (g.set i j s).lineCell l k = s) := by
  unfold Game.lineCell
  by_cases h : ((l.coord k).1, (l.coord k).2) = (i, j)
  · right
    have h1 : (l.coord k).1 = i := congrArg Prod.fst h
    have h2 : (l.coord k).2 = j := congrArg Prod.snd h
    rw [h1, h2]
    exact ⟨hE, set_at_same g i j s⟩
  · left
    exact set_at_other g i j _ _ s h

/-- Marking an empty cell for `s` does not lower the rank of any line for `s`. -/
theorem rankOf_set_mono (g : Game) (s : Cell) (hs : s ≠ Cell.E) (i j : Fin BoardSize)
    (hE : g.at i j = Cell.E) (l : Line) :
    g.rankOf s l ≤ (g.set i j s).rankOf s l := by
  rw [rankOf_eq_rankLoop, rankOf_eq_rankLoop]
  exact rankLoop_mono_map s hs (g.lineCell l) ((g.set i j s).lineCell l)
    (lineCell_set g s i j hE l) _ 0 0 (le_refl 0)

/-- The per-line summand is monotone on the range of ranks. -/
theorem contribution_mono (r r' : Int) (h : r ≤ r') (h9 : r' ≤ 9) :
    contribution r ≤ contribution r' := by
  unfold contribution
  simp only [BoardSize]
  push_cast
  split <;> split <;> omega

/-- The per-line summand of a non-negative rank is non-negative. -/
theorem contribution_nonneg (r : Int) (h : 0 ≤ r) : 0 ≤ contribution r := by
  unfold contribution
  simp only [BoardSize]
  push_cast
  split <;> omega

/-- The score is never negative. -/
theorem rate_nonneg (g : Game) (s : Cell) : 0 ≤ g.rate s := by
  rw [rate_eq_sum]
  apply List.sum_nonneg
  intro x hx
  obtain ⟨l, _, rfl⟩ := List.mem_map.mp hx
  exact contribution_nonneg _ (rankOf_bounds g s l).1

/-- C10: for every board `b`, every side `s` in {O, X} and every empty cell
`(i, j)` of `b`, marking `(i, j)` for `s` does not decrease the score of `s`:
`rate(s)` of `newGameWith(i, j, s)` is at least `rate(s)` of `b`. -/
theorem rate_mono (b : Game) (s : Cell) (hs : s = Cell.O ∨ s = Cell.X)
    (i j : Fin BoardSize) (hE : b.at i j = Cell.E) :
    b.rate s ≤ (b.newGameWith i j s).rate s := by
  have hsE : s ≠ Cell.E := by rcases hs with rfl | rfl <;> decide
  rw [rate_eq_sum, rate_eq_sum]
  apply List.sum_le_sum
  intro l _
  exact contribution_mono _ _ (rankOf_set_mono b s hsE i j hE l)
    (rankOf_bounds (b.set i j s) s l).2

/-! ## `find_best_simple` -/

/-- Nested loops over rows and columns act as one loop over the pairs. -/
theorem foldl_pairs {α β γ : Type} (step : γ → α → β → γ) (l : List α) (m : List β)
    (init : γ) :
    (l.flatMap fun i => m.map fun j => (i, j)).foldl (fun b p => step b p.1 p.2) init =
      l.foldl (fun b i => m.foldl (fun b j => step b i j) b) init := by
  induction l generalizing init with
  | nil => rfl
  | cons i rest ih =>
    rw [List.flatMap_cons, List.foldl_append, List.foldl_cons, List.foldl_map]
    exact ih _

/-- The nested loops of `find_best_simple` as one pass over `allCoords`. -/
theorem find_best_simple_eq (g : Game) (s : Cell) :
    find_best_simple g s =
      allCoords.foldl (fun best p => bestStep g s best p.1 p.2) ⟨none, none, -1⟩ := by
  unfold find_best_simple allCoords
  rw [foldl_pairs (fun best i j => bestStep g s best i j)]

/-- The loop body leaves the locals alone at an occupied cell. -/
theorem bestStep_occupied (g : Game) (s : Cell) (best : SimpleTurn) (i j : Fin BoardSize)
    (h : g.at i j ≠ Cell.E) : bestStep g s best i j = best := by
  unfold bestStep
  rw [if_pos h]

/-- The loop body at an empty cell whose score beats the best so far. -/
theorem bestStep_better (g : Game) (s : Cell) (best : SimpleTurn) (p : Fin BoardSize × Fin BoardSize)
    (h : g.at p.1 p.2 = Cell.E) (hr : best.rate < moveRate g s p) :
    bestStep g s best p.1 p.2 =
      ⟨some (p.1.val : Int), some (p.2.val : Int), moveRate g s p⟩ := by
  unfold bestStep
  rw [if_neg (not_not.mpr h)]
  simp only [moveRate] at hr ⊢
  rw [if_pos hr]

/-- The loop body at an empty cell whose score does not beat the best so far. -/
theorem bestStep_not_better (g : Game) (s : Cell) (best : SimpleTurn)
    (p : Fin BoardSize × Fin BoardSize) (hr : moveRate g s p ≤ best.rate) :
    bestStep g s best p.1 p.2 = best := by
  unfold bestStep
  split
  · rfl
  · simp only [moveRate] at hr ⊢
    rw [if_neg (not_lt.mpr hr)]

/-- Loop invariant of `find_best_simple` after the cells of `l` were visited:
either no visited cell is empty and the locals are untouched, or the locals hold
an empty cell `p` of `l` with its score, every empty cell visited before `p`
scores strictly less and every empty cell visited after `p` scores at most as
much. -/
theorem best_fold_inv (g : Game) (s : Cell) (l : List (Fin BoardSize × Fin BoardSize)) :
    ((∀ q ∈ l, g.at q.1 q.2 ≠ Cell.E) ∧
      l.foldl (fun best p => bestStep g s best p.1 p.2) ⟨none, none, -1⟩ = ⟨none, none, -1⟩) ∨
    (∃ l1 p l2, l = l1 ++ p :: l2 ∧ g.at p.1 p.2 = Cell.E ∧
      l.foldl (fun best p => bestStep g s best p.1 p.2) ⟨none, none, -1⟩ =
        ⟨some (p.1.val : Int), some (p.2.val : Int), moveRate g s p⟩ ∧
      (∀ q ∈ l1, g.at q.1 q.2 = Cell.E → moveRate g s q < moveRate g s p) ∧
      (∀ q ∈ l2, g.at q.1 q.2 = Cell.E → moveRate g s q ≤ moveRate g s p)) := by
  induction l using List.reverseRecOn with
  | nil =>
    left
    exact ⟨fun q hq => absurd hq (List.not_mem_nil q), rfl⟩
  | append_singleton l a ih =>
    rw [List.foldl_append, List.foldl_cons, List.foldl_nil]
    by_cases ha : g.at a.1 a.2 = Cell.E
    · rcases ih with ⟨hnone, hfold⟩ | ⟨l1, p, l2, hl, hp, hfold, hbefore, hafter⟩
      · right
        refine ⟨l, a, [], rfl, ha, ?_, ?_, ?_⟩
        · rw [hfold]
          apply bestStep_better g s _ a ha
          have := rate_nonneg (g.set a.1 a.2 s) s
          show (-1 : Int) < (g.set a.1 a.2 s).rate s
          omega
        · intro q hq hqE
          exact absurd hqE (hnone q hq)
        · intro q hq
          exact absurd hq (List.not_mem_nil q)
      · by_cases hlt : moveRate g s p < moveRate g s a
        · right
          refine ⟨l, a, [], rfl, ha, ?_, ?_, ?_⟩
          · rw [hfold]
            exact bestStep_better g s _ a ha hlt
          · intro q hq hqE
            rw [hl] at hq
            rcases List.mem_append.mp hq with h1 | h2
            · exact lt_trans (hbefore q h1 hqE) hlt
            · rcases List.mem_cons.mp h2 with rfl | h3
              · exact hlt
              · exact lt_of_le_of_lt (hafter q h3 hqE) hlt
          · intro q hq
            exact absurd hq (List.not_mem_nil q)
        · right
          refine ⟨l1, p, l2 ++ [a], ?_, hp, ?_, hbefore, ?_⟩
          · rw [hl]
            simp
          · rw [hfold]
            exact bestStep_not_better g s _ a (not_lt.mp hlt)
          · intro q hq hqE
            rcases List.mem_append.mp hq with h1 | h2
            · exact hafter q h1 hqE
            · rw [List.mem_singleton.mp h2]
              exact not_lt.mp hlt
    · rw [bestStep_occupied g s _ a.1 a.2 ha]
      rcases ih with ⟨hnone, hfold⟩ | ⟨l1, p, l2, hl, hp, hfold, hbefore, hafter⟩
      · left
        refine ⟨?_, hfold⟩
        intro q hq
        rcases List.mem_append.mp hq with h1 | h2
        · exact hnone q h1
        · rw [List.mem_singleton.mp h2]
          exact ha
      · right
        refine ⟨l1, p, l2 ++ [a], ?_, hp, hfold, hbefore, ?_⟩
        · rw [hl]
          simp
        · intro q hq hqE
          rcases List.mem_append.mp hq with h1 | h2
          · exact hafter q h1 hqE
          · rw [List.mem_singleton.mp h2] at hqE
            exact absurd hqE ha

/-- Every pair of loop indices is visited. -/
theorem mem_allCoords (p : Fin BoardSize × Fin BoardSize) : p ∈ allCoords := by
  unfold allCoords
  rw [List.mem_flatMap]
  exact ⟨p.1, List.mem_finRange _, List.mem_map.mpr ⟨p.2, List.mem_finRange _, rfl⟩⟩

/-- The loops visit the cells in strictly increasing row-major order. -/
theorem allCoords_sorted : allCoords.Pairwise lexLt := by
  unfold allCoords
  rw [List.pairwise_flatMap]
  constructor
  · intro i _
    rw [List.pairwise_map]
    exact (List.pairwise_lt_finRange BoardSize).imp (fun h => Or.inr ⟨rfl, h⟩)
  · refine (List.pairwise_lt_finRange BoardSize).imp ?_
    intro a b hab x hx y hy
    obtain ⟨_, _, rfl⟩ := List.mem_map.mp hx
    obtain ⟨_, _, rfl⟩ := List.mem_map.mp hy
    exact Or.inl hab

/-- Row-major order is irreflexive and asymmetric. -/
theorem lexLt_asymm (p q : Fin BoardSize × Fin BoardSize) (h : lexLt p q) : ¬ lexLt q p := by
  unfold lexLt at *
  rcases h with h | ⟨h1, h2⟩
  · rintro (h' | ⟨h1', _⟩)
    · exact absurd h (not_lt.mpr (le_of_lt h'))
    · rw [h1'] at h
      exact lt_irrefl _ h
  · rintro (h' | ⟨_, h2'⟩)
    · rw [h1] at h'
      exact lt_irrefl _ h'
    · exact absurd h2 (not_lt.mpr (le_of_lt h2'))

/-- On a board with an empty cell, `find_best_simple` returns an empty cell with
its score; no empty cell scores more, and every empty cell that precedes it in
row-major order scores strictly less. -/
theorem find_best_simple_first_max (g : Game) (s : Cell)
    (hex : ∃ i j, g.at i j = Cell.E) :
    ∃ p : Fin BoardSize × Fin BoardSize, g.at p.1 p.2 = Cell.E ∧
      find_best_simple g s = ⟨some (p.1.val : Int), some (p.2.val : Int), moveRate g s p⟩ ∧
      (∀ q : Fin BoardSize × Fin BoardSize, g.at q.1 q.2 = Cell.E →
        moveRate g s q ≤ moveRate g s p) ∧
      (∀ q : Fin BoardSize × Fin BoardSize, g.at q.1 q.2 = Cell.E → lexLt q p →
        moveRate g s q < moveRate g s p) := by
  rw [find_best_simple_eq]
  rcases best_fold_inv g s allCoords with ⟨hnone, _⟩ | ⟨l1, p, l2, hl, hp, hfold, hbefore, hafter⟩
  · obtain ⟨i, j, hij⟩ := hex
    exact absurd hij (hnone (i, j) (mem_allCoords (i, j)))
  · have hsorted := allCoords_sorted
    rw [hl, List.pairwise_append, List.pairwise_cons] at hsorted
    obtain ⟨_, ⟨hp_l2, _⟩, _⟩ := hsorted
    have hmem : ∀ q : Fin BoardSize × Fin BoardSize, q ∈ l1 ∨ q = p ∨ q ∈ l2 := by
      intro q
      have hq := mem_allCoords q
      rw [hl] at hq
      rcases List.mem_append.mp hq with h1 | h2
      · exact Or.inl h1
      · rcases List.mem_cons.mp h2 with h3 | h3
        · exact Or.inr (Or.inl h3)
        · exact Or.inr (Or.inr h3)
    refine ⟨p, hp, hfold, ?_, ?_⟩
    · intro q hq
      rcases hmem q with h1 | h2 | h3
      · exact le_of_lt (hbefore q h1 hq)
      · rw [h2]
      · exact hafter q h3 hq
    · intro q hq hlex
      rcases hmem q with h1 | h2 | h3
      · exact hbefore q h1 hq
      · rw [h2] at hlex
        exact absurd hlex (lexLt_asymm p p hlex)
      · exact absurd hlex (lexLt_asymm p q (hp_l2 q h3))

/-- C4: for every board with at least one empty cell and every side `s`,
`find_best_simple` returns `(i, j, r)` with `0 <= i, j < 9`, cell `(i, j)` empty,
`r` equal to `rate(s)` of the board with `(i, j)` marked for `s`, and no empty
cell whose marking for `s` gives a rate above `r`. -/
theorem find_best_simple_max (g : Game) (s : Cell) (hex : ∃ i j, g.at i j = Cell.E) :
    ∃ i j : Fin BoardSize,
      find_best_simple g s =
        ⟨some (i.val : Int), some (j.val : Int), (g.newGameWith i j s).rate s⟩ ∧
      (0 ≤ (i.val : Int) ∧ (i.val : Int) < 9 ∧ 0 ≤ (j.val : Int) ∧ (j.val : Int) < 9) ∧
      g.at i j = Cell.E ∧ g.atInt (i.val : Int) (j.val : Int) = some Cell.E ∧
      ∀ i' j', g.at i' j' = Cell.E →
        (g.newGameWith i' j' s).rate s ≤ (find_best_simple g s).rate := by
  obtain ⟨p, hp, hres, hmax, _⟩ := find_best_simple_first_max g s hex
  refine ⟨p.1, p.2, hres, ?_, hp, ?_, ?_⟩
  · have h1 := p.1.isLt
    have h2 := p.2.isLt
    simp only [BoardSize] at h1 h2
    omega
  · rw [atInt_coe, hp]
  · intro i' j' h
    rw [hres]
    exact hmax (i', j') h

/-- C5: for every board with at least one empty cell and every side `s`, the
cell `(i, j)` returned by `find_best_simple` is the first in row-major order
among the empty cells of maximal rate: no empty cell `(i', j')` with `i' < i`,
or with `i' = i` and `j' < j`, produces the returned rate. -/
theorem find_best_simple_tie_break (g : Game) (s : Cell) (hex : ∃ i j, g.at i j = Cell.E) :
    ∃ i j : Fin BoardSize,
      (find_best_simple g s).i = some (i.val : Int) ∧
      (find_best_simple g s).j = some (j.val : Int) ∧
      g.at i j = Cell.E ∧
      (g.newGameWith i j s).rate s = (find_best_simple g s).rate ∧
      (∀ i' j', g.at i' j' = Cell.E →
        (g.newGameWith i' j' s).rate s ≤ (find_best_simple g s).rate) ∧
      (∀ i' j', g.at i' j' = Cell.E → (i' < i ∨ (i' = i ∧ j' < j)) →
        (g.newGameWith i' j' s).rate s ≠ (find_best_simple g s).rate) := by
  obtain ⟨p, hp, hres, hmax, hfirst⟩ := find_best_simple_first_max g s hex
  refine ⟨p.1, p.2, ?_, ?_, hp, ?_, ?_, ?_⟩
  · rw [hres]
  · rw [hres]
  · rw [hres]
    rfl
  · intro i' j' h
    rw [hres]
    exact hmax (i', j') h
  · intro i' j' h hlex
    rw [hres]
    exact ne_of_lt (hfirst (i', j') h hlex)

/-- C7, refuted as stated: `fullBoard` has no empty cell and no completed line,
and for both sides `find_best_simple` returns normally, with rate `-1` and with
coordinates that were never assigned. -/
theorem find_best_simple_full_returns :
    (∀ i j, fullBoard.at i j ≠ Cell.E) ∧
    fullBoard.winner Cell.O = false ∧ fullBoard.winner Cell.X = false ∧
    find_best_simple fullBoard Cell.O = ⟨none, none, -1⟩ ∧
    find_best_simple fullBoard Cell.X = ⟨none, none, -1⟩ := by
  decide

/-- C7, amended: for every board that has no empty cell and every side,
`find_best_simple` returns a result whose rate is the initial value `-1`. -/
theorem find_best_simple_full (g : Game) (s : Cell) (hfull : ∀ i j, g.at i j ≠ Cell.E) :
    (find_best_simple g s).rate = -1 := by
  rw [find_best_simple_eq]
  rcases best_fold_inv g s allCoords with ⟨_, hfold⟩ | ⟨_, p, _, _, hp, _, _, _⟩
  · rw [hfold]
  · exact absurd hp (hfull p.1 p.2)

/-! ## Instances of the theorems on concrete boards -/

/-- Witness for `rank_spec`: side O and row 1 of the board with X in `(1, 0)`. -/
theorem rank_spec_witness :
    (Cell.O = Cell.O ∨ Cell.O = Cell.X) ∧
    (((∃ k, markedBoard.lineCell (Line.row 1) k = Cell.O.opponent) →
        markedBoard.rankOf Cell.O (Line.row 1) = 0) ∧
      ((∀ k, markedBoard.lineCell (Line.row 1) k ≠ Cell.O.opponent) →
        markedBoard.rankOf Cell.O (Line.row 1) =
          (((markedBoard.lineCells (Line.row 1)).count Cell.O : Nat) : Int))) :=
  ⟨Or.inl rfl, rank_spec markedBoard Cell.O (Or.inl rfl) (Line.row 1)⟩

/-- Witness for `winner_spec`: side O on the board whose main diagonal is O. -/
theorem winner_spec_witness :
    (Cell.O = Cell.O ∨ Cell.O = Cell.X) ∧
    ((diagBoard.winner Cell.O = true ↔
        ∃ l ∈ allLines, ∀ k, diagBoard.lineCell l k = Cell.O) ∧
      ((∀ k, diagBoard.lineCell Line.diagonal k = Cell.O) →
        (¬ ∃ l ∈ allLines, ∀ k, diagBoard.lineCell l k = Cell.X) →
        diagBoard.winner Cell.O = true ∧ diagBoard.winner Cell.X = false)) :=
  ⟨Or.inl rfl, winner_spec diagBoard Cell.O (Or.inl rfl)⟩

/-- Witness for `find_best_simple_max`: side O on the board with X in `(1, 0)`. -/
theorem find_best_simple_max_witness :
    (∃ i j, markedBoard.at i j = Cell.E) ∧
    ∃ i j : Fin BoardSize,
      find_best_simple markedBoard Cell.O =
        ⟨some (i.val : Int), some (j.val : Int), (markedBoard.newGameWith i j Cell.O).rate Cell.O⟩ ∧
      (0 ≤ (i.val : Int) ∧ (i.val : Int) < 9 ∧ 0 ≤ (j.val : Int) ∧ (j.val : Int) < 9) ∧
      markedBoard.at i j = Cell.E ∧ markedBoard.atInt (i.val : Int) (j.val : Int) = some Cell.E ∧
      ∀ i' j', markedBoard.at i' j' = Cell.E →
        (markedBoard.newGameWith i' j' Cell.O).rate Cell.O ≤
          (find_best_simple markedBoard Cell.O).rate :=
  ⟨⟨0, 0, by decide⟩, find_best_simple_max markedBoard Cell.O ⟨0, 0, by decide⟩⟩

/-- Witness for `find_best_simple_tie_break`: side X on the board whose main
diagonal is O, where every empty cell gives X the rate 0. -/
theorem find_best_simple_tie_break_witness :
    (∃ i j, diagBoard.at i j = Cell.E) ∧
    ∃ i j : Fin BoardSize,
      (find_best_simple diagBoard Cell.X).i = some (i.val : Int) ∧
      (find_best_simple diagBoard Cell.X).j = some (j.val : Int) ∧
      diagBoard.at i j = Cell.E ∧
      (diagBoard.newGameWith i j Cell.X).rate Cell.X = (find_best_simple diagBoard Cell.X).rate ∧
      (∀ i' j', diagBoard.at i' j' = Cell.E →
        (diagBoard.newGameWith i' j' Cell.X).rate Cell.X ≤
          (find_best_simple diagBoard Cell.X).rate) ∧
      (∀ i' j', diagBoard.at i' j' = Cell.E → (i' < i ∨ (i' = i ∧ j' < j)) →
        (diagBoard.newGameWith i' j' Cell.X).rate Cell.X ≠
          (find_best_simple diagBoard Cell.X).rate) :=
  ⟨⟨0, 1, by decide⟩, find_best_simple_tie_break diagBoard Cell.X ⟨0, 1, by decide⟩⟩

/-- Witness for `find_best_spec`: side O on the board with X in `(1, 0)`, where
the opponent's best rate 6 exceeds the own best rate 4. -/
theorem find_best_spec_witness :
    (Cell.O = Cell.O ∨ Cell.O = Cell.X) ∧
    (((find_best_simple markedBoard Cell.O.opponent).rate >
        (find_best_simple markedBoard Cell.O).rate →
      find_best markedBoard Cell.O =
        ⟨(find_best_simple markedBoard Cell.O.opponent).i,
          (find_best_simple markedBoard Cell.O.opponent).j⟩) ∧
    ((find_best_simple markedBoard Cell.O.opponent).rate ≤
        (find_best_simple markedBoard Cell.O).rate →
      find_best markedBoard Cell.O =
        ⟨(find_best_simple markedBoard Cell.O).i, (find_best_simple markedBoard Cell.O).j⟩)) :=
  ⟨Or.inl rfl, find_best_spec markedBoard Cell.O (Or.inl rfl)⟩

/-- Witness for `find_best_simple_full`: side O on `fullBoard`. -/
theorem find_best_simple_full_witness :
    (∀ i j, fullBoard.at i j ≠ Cell.E) ∧ (find_best_simple fullBoard Cell.O).rate = -1 :=
  ⟨by decide, find_best_simple_full fullBoard Cell.O (by decide)⟩

/-- Witness for `rate_mono`: side X marks the empty cell `(1, 1)` of the board
with X in `(1, 0)`. -/
theorem rate_mono_witness :
    (Cell.X = Cell.O ∨ Cell.X = Cell.X) ∧ markedBoard.at 1 1 = Cell.E ∧
    markedBoard.rate Cell.X ≤ (markedBoard.newGameWith 1 1 Cell.X).rate Cell.X :=
  ⟨Or.inr rfl, by decide, rate_mono markedBoard Cell.X (Or.inr rfl) 1 1 (by decide)⟩

/-! ## The completed-line bonus -/

/-- C11, refuted as stated: on the board where O holds every cell off the main
diagonal, O has completed no line and the contributions of the lines O has not
completed add up to 152, which is not less than the contribution 81 of a
completed line. -/
theorem partial_sum_exceeds_bonus :
    openDiagBoard.winner Cell.O = false ∧
    partialSum openDiagBoard Cell.O = 152 ∧ contribution 9 = 81 ∧
    ¬ (partialSum openDiagBoard Cell.O < contribution 9) := by
  decide

/-- The sum of at most `n` summands that are at most 8 each. -/
theorem sum_le_eight (xs : List Int) (h : ∀ x ∈ xs, x ≤ 8) : xs.sum ≤ 8 * (xs.length : Int) := by
  induction xs with
  | nil => simp
  | cons x rest ih =>
    have h1 := h x (List.mem_cons_self _ _)
    have h2 := ih (fun y hy => h y (List.mem_cons_of_mem _ hy))
    simp only [List.sum_cons, List.length_cons]
    push_cast
    omega

/-- C11, amended: for `BoardSize = 9`, every line that `s` has not completed
contributes its rank, which is at most 8 and so less than the contribution 81
of a completed line, and the contributions of all lines that `s` has not
completed add up to at most `20 * 8 = 160`. -/
theorem partial_sum_bound (g : Game) (s : Cell) :
    (∀ l : Line, g.rankOf s l ≠ 9 →
      contribution (g.rankOf s l) = g.rankOf s l ∧ g.rankOf s l ≤ 8 ∧
      contribution (g.rankOf s l) < contribution 9) ∧
    partialSum g s ≤ 160 := by
  have hline : ∀ l : Line, g.rankOf s l ≠ 9 →
      contribution (g.rankOf s l) = g.rankOf s l ∧ g.rankOf s l ≤ 8 ∧
      contribution (g.rankOf s l) < contribution 9 := by
    intro l hl
    have hb := rankOf_bounds g s l
    unfold contribution
    simp only [BoardSize]
    push_cast
    rw [if_neg hl]
    omega
  refine ⟨hline, ?_⟩
  unfold partialSum
  have hlen : ((allLines.filter fun l => decide (g.rankOf s l ≠ (BoardSize : Int))).map
      fun l => contribution (g.rankOf s l)).length ≤ 20 := by
    rw [List.length_map, ← allLines_length]
    exact List.length_filter_le _ _
  have hsum := sum_le_eight ((allLines.filter fun l => decide (g.rankOf s l ≠ (BoardSize : Int))).map
      fun l => contribution (g.rankOf s l)) (by
    intro x hx
    obtain ⟨l, hl, rfl⟩ := List.mem_map.mp hx
    have hne : g.rankOf s l ≠ 9 := by
      have := (List.mem_filter.mp hl).2
      simpa [BoardSize] using this
    have := hline l hne
    omega)
  have hlen' : ((((allLines.filter fun l => decide (g.rankOf s l ≠ (BoardSize : Int))).map
      fun l => contribution (g.rankOf s l)).length : Nat) : Int) ≤ 20 := by
    exact_mod_cast hlen
  omega

/-! ## `find_best_simple` on a board with one empty cell -/

/-- C12: for every board with exactly one empty cell `(i, j)` and every side
`s`, `find_best_simple` returns exactly `(i, j)`, with a rate equal to `rate(s)`
of the board obtained by marking `(i, j)` for `s`. -/
theorem find_best_simple_single (g : Game) (s : Cell) (i j : Fin BoardSize)
    (hE : g.at i j = Cell.E)
    (honly : ∀ i' j', g.at i' j' = Cell.E → i' = i ∧ j' = j) :
    find_best_simple g s =
      ⟨some (i.val : Int), some (j.val : Int), (g.newGameWith i j s).rate s⟩ := by
  obtain ⟨p, hp, hres, _, _⟩ := find_best_simple_first_max g s ⟨i, j, hE⟩
  obtain ⟨h1, h2⟩ := honly p.1 p.2 hp
  rw [hres]
  have hpe : p = (i, j) := Prod.ext h1 h2
  rw [hpe]
  rfl

/-- Witness for `find_best_simple_single`: side X on `fullBoard` with cell
`(3, 5)` emptied. -/
theorem find_best_simple_single_witness :
    oneEmptyBoard.at 3 5 = Cell.E ∧
    (∀ i' j', oneEmptyBoard.at i' j' = Cell.E → i' = 3 ∧ j' = 5) ∧
    find_best_simple oneEmptyBoard Cell.X =
      ⟨some ((3 : Fin BoardSize).val : Int), some ((5 : Fin BoardSize).val : Int),
        (oneEmptyBoard.newGameWith 3 5 Cell.X).rate Cell.X⟩ :=
  ⟨by decide, by decide,
    find_best_simple_single oneEmptyBoard Cell.X 3 5 (by decide) (by decide)⟩

/-! ## The effect of one mark on the ranks -/

/-- The scan of a line reads nine different cells. -/
theorem coord_injective (l : Line) (k k' : Fin BoardSize) (h : l.coord k = l.coord k') :
    k = k' := by
  cases l with
  | diagonal => exact congrArg Prod.fst h
  | backDiagonal => exact congrArg Prod.fst h
  | row i => exact congrArg Prod.snd h
  | column j => exact congrArg Prod.fst h

/-- The content of the cells of a line after a write to `(i, j)`. -/
theorem lineCell_set_eq (g : Game) (c : Cell) (i j : Fin BoardSize) (l : Line)
    (k : Fin BoardSize) :
    (g.set i j c).lineCell l k = if l.coord k = (i, j) then c else g.lineCell l k := by
  unfold Game.lineCell
  by_cases h : l.coord k = (i, j)
  · rw [if_pos h]
    have h1 : (l.coord k).1 = i := congrArg Prod.fst h
    have h2 : (l.coord k).2 = j := congrArg Prod.snd h
    rw [h1, h2]
    exact set_at_same g i j c
  · rw [if_neg h]
    exact set_at_other g i j _ _ c h

/-- A write to a cell off a line leaves the rank of the line unchanged. -/
theorem rankOf_set_off (g : Game) (s c : Cell) (i j : Fin BoardSize) (l : Line)
    (h : ∀ k, l.coord k ≠ (i, j)) : (g.set i j c).rankOf s l = g.rankOf s l := by
  rw [rankOf_eq_rankLoop, rankOf_eq_rankLoop]
  congr 1
  unfold Game.lineCells
  apply List.map_congr_left
  intro k _
  rw [lineCell_set_eq, if_neg (h k)]

/-- A mark of `c` on a line gives the line rank `0` for every other cell value. -/
theorem rankOf_set_blocked (g : Game) (c t : Cell) (hc : c ≠ Cell.E) (hct : c ≠ t)
    (i j : Fin BoardSize) (l : Line) (k : Fin BoardSize) (h : l.coord k = (i, j)) :
    (g.set i j c).rankOf t l = 0 := by
  rw [rankOf_eq_rankLoop]
  apply rankLoop_blocked
  refine ⟨c, (mem_lineCells _ l c).mpr ⟨k, ?_⟩, hc, hct⟩
  rw [lineCell_set_eq, if_pos h]

/-- Changing one entry of a list without repetitions from a value other than
`s` to `s` raises the number of entries equal to `s` by one. -/
theorem count_map_change {α : Type} [DecidableEq α] (f f' : α → Cell) (s : Cell) (k0 : α)
    (hf : f k0 ≠ s) (hf' : f' k0 = s) (hoff : ∀ k, k ≠ k0 → f' k = f k)
    (ks : List α) (hnd : ks.Nodup) :
    (ks.map f').count s = (ks.map f).count s + (if k0 ∈ ks then 1 else 0) := by
  induction ks with
  | nil => simp
  | cons k rest ih =>
    have hnd' := List.nodup_cons.mp hnd
    have ih' := ih hnd'.2
    simp only [List.map_cons]
    by_cases hk : k = k0
    · subst hk
      have hnot : k ∉ rest := hnd'.1
      rw [if_neg hnot] at ih'
      rw [hf', List.count_cons_self, List.count_cons_of_ne (Ne.symm hf), ih',
        if_pos (List.mem_cons_self _ _)]
    · have hmem : (k0 ∈ k :: rest) ↔ k0 ∈ rest := by
        constructor
        · intro h
          rcases List.mem_cons.mp h with h1 | h1
          · exact absurd h1.symm hk
          · exact h1
        · exact List.mem_cons_of_mem _
      rw [hoff k hk, List.count_cons, List.count_cons, ih']
      simp only [hmem]
      omega

/-- The rank of a line for `s` after an empty cell of the line was marked for
`s`: `0` when the line holds a cell of another side, one more than before
otherwise. -/
theorem rankOf_set_on (g : Game) (s : Cell) (hs : s ≠ Cell.E) (i j : Fin BoardSize)
    (hE : g.at i j = Cell.E) (l : Line) (k : Fin BoardSize) (h : l.coord k = (i, j)) :
    ((∃ k', g.lineCell l k' ≠ Cell.E ∧ g.lineCell l k' ≠ s) →
      (g.set i j s).rankOf s l = 0 ∧ g.rankOf s l = 0) ∧
    ((¬ ∃ k', g.lineCell l k' ≠ Cell.E ∧ g.lineCell l k' ≠ s) →
      (g.set i j s).rankOf s l = g.rankOf s l + 1) := by
  have hk : g.lineCell l k = Cell.E := by
    unfold Game.lineCell
    rw [h]
    exact hE
  constructor
  · rintro ⟨k', h1, h2⟩
    constructor
    · rw [rankOf_eq_rankLoop]
      apply rankLoop_blocked
      refine ⟨g.lineCell l k', (mem_lineCells _ l _).mpr ⟨k', ?_⟩, h1, h2⟩
      rw [lineCell_set_eq]
      have hne : l.coord k' ≠ (i, j) := by
        intro heq
        have : k' = k := coord_injective l k' k (heq.trans h.symm)
        rw [this] at h1
        exact h1 hk
      rw [if_neg hne]
    · rw [rankOf_eq_rankLoop]
      exact rankLoop_blocked s _ 0 ⟨g.lineCell l k', (mem_lineCells g l _).mpr ⟨k', rfl⟩, h1, h2⟩
  · intro hfree
    have hclear : ∀ c ∈ g.lineCells l, c = Cell.E ∨ c = s := by
      intro c hc
      obtain ⟨k', rfl⟩ := (mem_lineCells g l c).mp hc
      by_contra hcon
      push_neg at hcon
      exact hfree ⟨k', hcon.1, hcon.2⟩
    have hclear' : ∀ c ∈ (g.set i j s).lineCells l, c = Cell.E ∨ c = s := by
      intro c hc
      obtain ⟨k', rfl⟩ := (mem_lineCells _ l c).mp hc
      rw [lineCell_set_eq]
      split
      · exact Or.inr rfl
      · exact hclear _ ((mem_lineCells g l _).mpr ⟨k', rfl⟩)
    rw [rankOf_eq_rankLoop, rankOf_eq_rankLoop, rankLoop_clear s hs _ 0 hclear',
      rankLoop_clear s hs _ 0 hclear]
    have hcount := count_map_change (g.lineCell l) ((g.set i j s).lineCell l) s k
      (by rw [hk]; exact Ne.symm hs)
      (by rw [lineCell_set_eq, if_pos h])
      (by
        intro k' hk'
        rw [lineCell_set_eq]
        have hne : l.coord k' ≠ (i, j) := by
          intro heq
          exact hk' (coord_injective l k' k (heq.trans h.symm))
        rw [if_neg hne])
      (List.finRange BoardSize) (List.nodup_finRange BoardSize)
    rw [if_pos (List.mem_finRange k)] at hcount
    unfold Game.lineCells
    rw [hcount]
    push_cast
    ring

/-- Marking an empty cell for `s` raises the rank of a line for `s` by at most
one. -/
theorem rankOf_set_le_succ (g : Game) (s : Cell) (hs : s ≠ Cell.E) (i j : Fin BoardSize)
    (hE : g.at i j = Cell.E) (l : Line) :
    (g.set i j s).rankOf s l ≤ g.rankOf s l + 1 := by
  by_cases hon : ∃ k, l.coord k = (i, j)
  · obtain ⟨k, hk⟩ := hon
    have h := rankOf_set_on g s hs i j hE l k hk
    by_cases hb : ∃ k', g.lineCell l k' ≠ Cell.E ∧ g.lineCell l k' ≠ s
    · rw [(h.1 hb).1, (h.1 hb).2]
      decide
    · rw [h.2 hb]
  · push_neg at hon
    rw [rankOf_set_off g s s i j l hon]
    omega

/-! ## A mark and the opponent's score -/

/-- C18: for every board `b`, every side `s` in {O, X} with opponent `t` and
every cell `(i, j)` of `b` (empty or not), marking `(i, j)` for `s` does not
increase the opponent's score, and afterwards every line through `(i, j)` has
rank 0 for `t`. -/
theorem rate_opponent_antitone (b : Game) (s : Cell) (hs : s = Cell.O ∨ s = Cell.X)
    (i j : Fin BoardSize) :
    (b.newGameWith i j s).rate s.opponent ≤ b.rate s.opponent ∧
    ∀ (l : Line) (k : Fin BoardSize), l.coord k = (i, j) →
      (b.newGameWith i j s).rankOf s.opponent l = 0 := by
  have hsE : s ≠ Cell.E := by rcases hs with rfl | rfl <;> decide
  have hst : s ≠ s.opponent := by rcases hs with rfl | rfl <;> decide
  have hzero : ∀ (l : Line) (k : Fin BoardSize), l.coord k = (i, j) →
      (b.set i j s).rankOf s.opponent l = 0 :=
    fun l k h => rankOf_set_blocked b s s.opponent hsE hst i j l k h
  refine ⟨?_, hzero⟩
  show (b.set i j s).rate s.opponent ≤ b.rate s.opponent
  rw [rate_eq_sum, rate_eq_sum]
  apply List.sum_le_sum
  intro l _
  apply contribution_mono _ _ _ (rankOf_bounds b s.opponent l).2
  by_cases hon : ∃ k, l.coord k = (i, j)
  · obtain ⟨k, hk⟩ := hon
    rw [hzero l k hk]
    exact (rankOf_bounds b s.opponent l).1
  · push_neg at hon
    rw [rankOf_set_off b s.opponent s i j l hon]

/-- Witness for `rate_opponent_antitone`: O marks the empty cell `(1, 1)` of the
board with X in `(1, 0)`. -/
theorem rate_opponent_antitone_witness :
    (Cell.O = Cell.O ∨ Cell.O = Cell.X) ∧ markedBoard.at 1 1 = Cell.E ∧
    ((markedBoard.newGameWith 1 1 Cell.O).rate Cell.O.opponent ≤
        markedBoard.rate Cell.O.opponent ∧
      ∀ (l : Line) (k : Fin BoardSize), l.coord k = (1, 1) →
        (markedBoard.newGameWith 1 1 Cell.O).rankOf Cell.O.opponent l = 0) :=
  ⟨Or.inl rfl, by decide, rate_opponent_antitone markedBoard Cell.O (Or.inl rfl) 1 1⟩

/-! ## Winning moves -/

/-- A sum in which one summand grows by `d` and no summand shrinks grows by at
least `d`. -/
theorem sum_add_le_of_mem (L : List Line) (f f' : Line → Int) (d : Int) (l0 : Line)
    (hmem : l0 ∈ L) (hle : ∀ l ∈ L, f l ≤ f' l) (h0 : f l0 + d ≤ f' l0) :
    (L.map f).sum + d ≤ (L.map f').sum := by
  induction L with
  | nil => exact absurd hmem (List.not_mem_nil l0)
  | cons a rest ih =>
    simp only [List.map_cons, List.sum_cons]
    rcases List.mem_cons.mp hmem with h | h
    · subst h
      have hrest : (rest.map f).sum ≤ (rest.map f').sum :=
        List.sum_le_sum (fun l hl => hle l (List.mem_cons_of_mem _ hl))
      omega
    · have h1 := ih h (fun l hl => hle l (List.mem_cons_of_mem _ hl))
      have h2 := hle a (List.mem_cons_self _ _)
      omega

/-- A mark that completes no line raises the score by at most one per line. -/
theorem moveRate_le_of_not_winner (g : Game) (s : Cell) (hs : s ≠ Cell.E)
    (p : Fin BoardSize × Fin BoardSize) (hE : g.at p.1 p.2 = Cell.E)
    (hnw : (g.set p.1 p.2 s).winner s = false) :
    moveRate g s p ≤ g.rate s + 20 := by
  unfold moveRate
  rw [rate_eq_sum, rate_eq_sum]
  have hone : (allLines.map fun _ => (1 : Int)).sum = 20 := by decide
  have hsum : (allLines.map fun l => contribution (g.rankOf s l) + 1).sum =
      (allLines.map fun l => contribution (g.rankOf s l)).sum + 20 := by
    rw [List.sum_map_add, hone]
  rw [← hsum]
  apply List.sum_le_sum
  intro l _
  have hne : (g.set p.1 p.2 s).rankOf s l ≠ 9 := by
    intro h9
    have hw := (winner_iff (g.set p.1 p.2 s) s hs).mpr
      ⟨l, (rankOf_eq_size _ s hs l).mp (by simpa [BoardSize] using h9)⟩
    rw [hnw] at hw
    exact Bool.false_ne_true hw
  have hstep := rankOf_set_le_succ g s hs p.1 p.2 hE l
  have hb := rankOf_bounds g s l
  have h1 : contribution ((g.set p.1 p.2 s).rankOf s l) = (g.set p.1 p.2 s).rankOf s l := by
    unfold contribution
    simp only [BoardSize]
    push_cast
    rw [if_neg hne]
  have h2 : g.rankOf s l ≤ contribution (g.rankOf s l) := by
    unfold contribution
    simp only [BoardSize]
    push_cast
    split <;> omega
  omega

/-- A mark that completes a line on a board without a completed line raises
the score by at least 73. -/
theorem moveRate_ge_of_winner (g : Game) (s : Cell) (hs : s ≠ Cell.E)
    (p : Fin BoardSize × Fin BoardSize) (hE : g.at p.1 p.2 = Cell.E)
    (hw : (g.set p.1 p.2 s).winner s = true) (hnw : g.winner s = false) :
    g.rate s + 73 ≤ moveRate g s p := by
  obtain ⟨l0, hl0⟩ := (winner_iff _ s hs).mp hw
  have h9 : (g.set p.1 p.2 s).rankOf s l0 = 9 := by
    have := (rankOf_eq_size _ s hs l0).mpr hl0
    simpa [BoardSize] using this
  have hne : g.rankOf s l0 ≠ 9 := by
    intro h
    have hw' := (winner_iff g s hs).mpr
      ⟨l0, (rankOf_eq_size g s hs l0).mp (by simpa [BoardSize] using h)⟩
    rw [hnw] at hw'
    exact Bool.false_ne_true hw'
  unfold moveRate
  rw [rate_eq_sum, rate_eq_sum]
  apply sum_add_le_of_mem allLines _ _ 73 l0 (mem_allLines l0)
  · intro l _
    exact contribution_mono _ _ (rankOf_set_mono g s hs p.1 p.2 hE l)
      (rankOf_bounds (g.set p.1 p.2 s) s l).2
  · rw [h9]
    have hb := rankOf_bounds g s l0
    unfold contribution
    simp only [BoardSize]
    push_cast
    rw [if_neg hne]
    norm_num
    omega

/-- A completed line stays completed when an empty cell is marked. -/
theorem winner_set_of_winner (g : Game) (s : Cell) (hs : s ≠ Cell.E) (i j : Fin BoardSize)
    (hw : g.winner s = true) : (g.set i j s).winner s = true := by
  obtain ⟨l, hl⟩ := (winner_iff g s hs).mp hw
  refine (winner_iff _ s hs).mpr ⟨l, fun k => ?_⟩
  rw [lineCell_set_eq]
  split
  · rfl
  · exact hl k

/-- C17: for every board and every side `s` in {O, X}, if some empty cell
completes a line for `s` when marked for `s`, then the cell returned by
`find_best_simple` also completes a line for `s`. -/
theorem winning_move_preferred (g : Game) (s : Cell) (hs : s = Cell.O ∨ s = Cell.X)
    (hwin : ∃ i j, g.at i j = Cell.E ∧ (g.newGameWith i j s).winner s = true) :
    ∃ i j : Fin BoardSize,
      (find_best_simple g s).i = some (i.val : Int) ∧
      (find_best_simple g s).j = some (j.val : Int) ∧
      g.at i j = Cell.E ∧ (g.newGameWith i j s).winner s = true := by
  have hsE : s ≠ Cell.E := by rcases hs with rfl | rfl <;> decide
  obtain ⟨a, b, haE, haw⟩ := hwin
  obtain ⟨p, hp, hres, hmax, _⟩ := find_best_simple_first_max g s ⟨a, b, haE⟩
  refine ⟨p.1, p.2, by rw [hres], by rw [hres], hp, ?_⟩
  show (g.set p.1 p.2 s).winner s = true
  cases hpw : (g.set p.1 p.2 s).winner s
  · exfalso
    have hgw : g.winner s = false := by
      cases hg : g.winner s
      · rfl
      · rw [winner_set_of_winner g s hsE p.1 p.2 hg] at hpw
        exact absurd hpw (by decide)
    have h1 := moveRate_le_of_not_winner g s hsE p hp hpw
    have h2 := moveRate_ge_of_winner g s hsE (a, b) haE haw hgw
    have h3 := hmax (a, b) haE
    omega
  · rfl

/-- Witness for `winning_move_preferred`: side O on the board where O holds the
first eight cells of row 0. -/
theorem winning_move_preferred_witness :
    (Cell.O = Cell.O ∨ Cell.O = Cell.X) ∧
    (∃ i j, nearWinBoard.at i j = Cell.E ∧
      (nearWinBoard.newGameWith i j Cell.O).winner Cell.O = true) ∧
    ∃ i j : Fin BoardSize,
      (find_best_simple nearWinBoard Cell.O).i = some (i.val : Int) ∧
      (find_best_simple nearWinBoard Cell.O).j = some (j.val : Int) ∧
      nearWinBoard.at i j = Cell.E ∧
      (nearWinBoard.newGameWith i j Cell.O).winner Cell.O = true :=
  ⟨Or.inl rfl, ⟨0, 8, by decide, by decide⟩,
    winning_move_preferred nearWinBoard Cell.O (Or.inl rfl) ⟨0, 8, by decide, by decide⟩⟩

/-! ## Output of `print` -/

/-- The characters written by an inner loop of `print`. -/
theorem print_inner (f : Fin BoardSize → String) (js : List (Fin BoardSize)) (out : String) :
    (js.foldl (fun out j => out ++ f j) out).data =
      out.data ++ (js.map fun j => (f j).data).flatten := by
  induction js generalizing out with
  | nil => simp
  | cons j rest ih =>
    rw [List.foldl_cons, ih, String.data_append]
    simp

/-- The characters written by the outer loop of `print`. -/
theorem print_outer (f : Fin BoardSize → List Char) (g : String → Fin BoardSize → String)
    (hg : ∀ out i, (g out i).data = out.data ++ f i) (is : List (Fin BoardSize))
    (out : String) :
    (is.foldl g out).data = out.data ++ (is.map f).flatten := by
  induction is generalizing out with
  | nil => simp
  | cons i rest ih =>
    rw [List.foldl_cons, ih, hg]
    simp

/-- Every cell is written as the one character `cellChar`. -/
theorem cellToStr_data (c : Cell) : (cellToStr c).data = [cellChar c] := by
  cases c <;> rfl

/-- C16: for every board, the text written by `print` consists of exactly 9
lines of exactly 9 characters, each ended by a line feed; the `k`-th line shows
row `8 - k` of the board with columns `0 .. 8` from left to right, and a cell is
written as `_` when empty, `O` for O and `X` for X, three different characters
none of which is a line feed. -/
theorem print_spec (game : Game) :
    (print game).data =
      ((List.finRange BoardSize).map fun k => printedRow game k ++ ['\n']).flatten ∧
    ((List.finRange BoardSize).map fun k => printedRow game k).length = 9 ∧
    (∀ k, (printedRow game k).length = 9 ∧ '\n' ∉ printedRow game k) ∧
    (∀ (k j : Fin BoardSize) (h : j.val < (printedRow game k).length),
      (printedRow game k).get ⟨j.val, h⟩ =
        cellChar (game.at ⟨8 - k.val, by simp only [BoardSize]; omega⟩ j)) ∧
    (cellChar Cell.E = '_' ∧ cellChar Cell.O = 'O' ∧ cellChar Cell.X = 'X') ∧
    (∀ c, (cellToStr c).data = [cellChar c]) ∧
    (∀ c d, cellChar c = cellChar d → c = d) := by
  refine ⟨?_, by simp, ?_, ?_, ⟨rfl, rfl, rfl⟩, cellToStr_data, ?_⟩
  · unfold print
    rw [print_outer (fun k => printedRow game k ++ ['\n'])]
    · simp
    · intro out i
      rw [String.data_append, print_inner]
      have hrow : ((List.finRange BoardSize).map fun j =>
          (cellToStr (game.at (backIdx i) j)).data).flatten = printedRow game i := by
        unfold printedRow
        have hfl : ∀ (js : List (Fin BoardSize)) (h : Fin BoardSize → Char),
            (js.map fun j => [h j]).flatten = js.map h := by
          intro js h
          induction js with
          | nil => rfl
          | cons a rest ih => simp [ih]
        simp only [cellToStr_data]
        rw [hfl]
        have hback : backIdx i = ⟨8 - i.val, by simp only [BoardSize]; omega⟩ := by
          apply Fin.ext
          simp only [backIdx, BoardSize]
          omega
        rw [hback]
      rw [hrow]
      simp
  · intro k
    constructor
    · simp [printedRow]
    · unfold printedRow
      intro hmem
      obtain ⟨j, _, hj⟩ := List.mem_map.mp hmem
      revert hj
      cases game.at ⟨8 - k.val, by simp only [BoardSize]; omega⟩ j <;> decide
  · intro k j h
    simp [printedRow]
  · intro c d
    cases c <;> cases d <;> decide

/-! ## Counting cells -/

/-- There are 81 cells. -/
theorem allCoords_length : allCoords.length = 81 := by decide

/-- No cell is visited twice. -/
theorem allCoords_nodup : allCoords.Nodup := by
  refine allCoords_sorted.imp ?_
  intro a b hab heq
  rw [heq] at hab
  exact lexLt_asymm b b hab hab

/-- Every entry of a list of cells is empty, O or X. -/
theorem count_cells (cs : List Cell) :
    cs.count Cell.E + cs.count Cell.O + cs.count Cell.X = cs.length := by
  induction cs with
  | nil => rfl
  | cons c rest ih =>
    cases c <;> simp [List.count_cons] <;> omega

/-- The empty, O and X cells make up the 81 cells of the board. -/
theorem count_total (g : Game) : g.count Cell.E + g.count Cell.O + g.count Cell.X = 81 := by
  unfold Game.count
  rw [count_cells, List.length_map, allCoords_length]

/-- Changing one entry of a list between two values other than `d` leaves the
number of entries equal to `d` unchanged. -/
theorem count_map_same {α : Type} (f f' : α → Cell) (d : Cell) (k0 : α)
    (hf : f k0 ≠ d) (hf' : f' k0 ≠ d) (hoff : ∀ k, k ≠ k0 → f' k = f k) (ks : List α) :
    (ks.map f').count d = (ks.map f).count d := by
  induction ks with
  | nil => rfl
  | cons k rest ih =>
    simp only [List.map_cons]
    by_cases hk : k = k0
    · subst hk
      rw [List.count_cons_of_ne (Ne.symm hf'), List.count_cons_of_ne (Ne.symm hf), ih]
    · rw [hoff k hk, List.count_cons, List.count_cons, ih]

/-- Reading a cell after a write, by coordinates. -/
theorem set_at_pair (g : Game) (c : Cell) (p q : Fin BoardSize × Fin BoardSize) :
    (g.set p.1 p.2 c).at q.1 q.2 = if q = p then c else g.at q.1 q.2 := by
  by_cases h : q = p
  · rw [if_pos h, h]
    exact set_at_same g p.1 p.2 c
  · rw [if_neg h]
    exact set_at_other g p.1 p.2 q.1 q.2 c h

/-- Marking an empty cell for a side adds one cell of that side. -/
theorem count_set_self (g : Game) (c : Cell) (hc : c ≠ Cell.E) (i j : Fin BoardSize)
    (hE : g.at i j = Cell.E) : (g.set i j c).count c = g.count c + 1 := by
  unfold Game.count
  have h := count_map_change (fun p : Fin BoardSize × Fin BoardSize => g.at p.1 p.2)
    (fun p => (g.set i j c).at p.1 p.2) c (i, j)
    (by show g.at i j ≠ c; rw [hE]; exact Ne.symm hc)
    (set_at_same g i j c)
    (by
      intro q hq
      have := set_at_pair g c (i, j) q
      rw [if_neg hq] at this
      exact this)
    allCoords allCoords_nodup
  rw [if_pos (mem_allCoords (i, j))] at h
  exact h

/-- Marking an empty cell for a side leaves the number of cells of any other
side unchanged. -/
theorem count_set_other (g : Game) (c d : Cell) (hd : d ≠ Cell.E) (hcd : c ≠ d)
    (i j : Fin BoardSize) (hE : g.at i j = Cell.E) : (g.set i j c).count d = g.count d := by
  unfold Game.count
  exact count_map_same (fun p : Fin BoardSize × Fin BoardSize => g.at p.1 p.2)
    (fun p => (g.set i j c).at p.1 p.2) d (i, j)
    (by show g.at i j ≠ d; rw [hE]; exact Ne.symm hd)
    (by show (g.set i j c).at i j ≠ d; rw [set_at_same]; exact hcd)
    (by
      intro q hq
      have := set_at_pair g c (i, j) q
      rw [if_neg hq] at this
      exact this)
    allCoords

/-- A board with fewer than 81 marks has an empty cell. -/
theorem exists_empty_of_count (g : Game) (h : g.count Cell.O + g.count Cell.X < 81) :
    ∃ i j, g.at i j = Cell.E := by
  have ht := count_total g
  have hpos : 0 < g.count Cell.E := by omega
  unfold Game.count at hpos
  obtain ⟨p, _, hp⟩ := List.mem_map.mp (List.count_pos_iff.mp hpos)
  exact ⟨p.1, p.2, hp⟩

/-- A board without an empty cell has no cell counted as empty. -/
theorem count_empty_zero_iff (g : Game) :
    g.count Cell.E = 0 ↔ ∀ i j, g.at i j ≠ Cell.E := by
  unfold Game.count
  rw [List.count_eq_zero]
  constructor
  · intro h i j hE
    exact h (List.mem_map.mpr ⟨(i, j), mem_allCoords (i, j), hE⟩)
  · intro h hmem
    obtain ⟨p, _, hp⟩ := List.mem_map.mp hmem
    exact h p.1 p.2 hp

/-! ## The loop of `main`: invariants -/

/-- On loop indices the write of `main` is `Game.set`. -/
theorem setInt_coe (g : Game) (i j : Fin BoardSize) (c : Cell) :
    g.setInt (i.val : Int) (j.val : Int) c = some (g.set i j c) := by
  unfold Game.setInt Game.set
  rw [dif_pos (validIndex_coe i j), flatIndex_coe]

/-- On a board with an empty cell `find_best` returns the loop indices of an
empty cell. -/
theorem find_best_empty (g : Game) (s : Cell) (hex : ∃ i j, g.at i j = Cell.E) :
    ∃ i j : Fin BoardSize,
      find_best g s = ⟨some (i.val : Int), some (j.val : Int)⟩ ∧ g.at i j = Cell.E := by
  obtain ⟨p, hp, hres, _, _⟩ := find_best_simple_first_max g s hex
  obtain ⟨q, hq, hres', _, _⟩ := find_best_simple_first_max g s.other hex
  unfold find_best
  by_cases h : (find_best_simple g s.other).rate > (find_best_simple g s).rate
  · refine ⟨q.1, q.2, ?_, hq⟩
    simp only [if_pos h]
    rw [hres']
  · refine ⟨p.1, p.2, ?_, hp⟩
    simp only [if_neg h]
    rw [hres]

/-- The sides alternate. -/
theorem sideOf_succ (n : Nat) : (sideOf n).other = sideOf (n + 1) := by
  unfold sideOf Cell.other
  rcases Nat.mod_two_eq_zero_or_one n with h | h
  · have h' : (n + 1) % 2 = 1 := by omega
    simp [h, h']
  · have h' : (n + 1) % 2 = 0 := by omega
    simp [h, h']

/-- The side to move is O or X. -/
theorem sideOf_cases (n : Nat) :
    (n % 2 = 0 ∧ sideOf n = Cell.O) ∨ (n % 2 = 1 ∧ sideOf n = Cell.X) := by
  unfold sideOf
  rcases Nat.mod_two_eq_zero_or_one n with h | h
  · left
    simp [h]
  · right
    simp [h]

/-- A log stays valid when a valid pass is appended. -/
theorem logOK_append (log : List Played) (e : Played) (hlog : LogOK log)
    (he : EntryOK log.length e) : LogOK (log ++ [e]) := by
  intro k e' hk
  by_cases hlt : k < log.length
  · rw [List.getElem?_append_left hlt] at hk
    exact hlog k e' hk
  · rw [List.getElem?_append_right (not_lt.mp hlt)] at hk
    have hk0 : k - log.length = 0 := by
      by_contra hne
      obtain ⟨m, hm⟩ := Nat.exists_eq_succ_of_ne_zero hne
      rw [hm] at hk
      simp at hk
    rw [hk0] at hk
    simp only [List.getElem?_cons_zero, Option.some.injEq] at hk
    have hkl : k = log.length := by omega
    rw [← hk, hkl]
    exact he

/-- The numbers of O and X cells after move number `n`. -/
theorem counts_after_move (g : Game) (n : Nat) (i j : Fin BoardSize)
    (hE : g.at i j = Cell.E) (hO : g.count Cell.O = (n + 1) / 2) (hX : g.count Cell.X = n / 2) :
    (g.set i j (sideOf n)).count Cell.O = (n + 1 + 1) / 2 ∧
    (g.set i j (sideOf n)).count Cell.X = (n + 1) / 2 := by
  rcases sideOf_cases n with ⟨hpar, hside⟩ | ⟨hpar, hside⟩
  · rw [hside, count_set_self g Cell.O (by decide) i j hE,
      count_set_other g Cell.O Cell.X (by decide) (by decide) i j hE]
    omega
  · rw [hside, count_set_self g Cell.X (by decide) i j hE,
      count_set_other g Cell.X Cell.O (by decide) (by decide) i j hE]
    omega

/-- The loop of `main` started after `log.length` alternating moves on a
board with that many marks, with `iteration_limit = ℓ` and room for `ℓ + 1` more
marks: the loop is left after at most `ℓ + 1` further passes, each of which
satisfies `EntryOK`; it is left by `break` only after exactly `ℓ + 1` further
passes, and by the loop condition only when a side has a completed line. -/
theorem mainLoop_exits (ℓ : Nat) : ∀ (fuel : Nat) (game : Game) (turn : Cell)
    (log : List Played),
    log.length + ℓ ≤ 80 → ℓ + 1 ≤ fuel → turn = sideOf log.length →
    game.count Cell.O = (log.length + 1) / 2 → game.count Cell.X = log.length / 2 →
    LogOK log →
    ∃ game' turn' lim' brk log',
      mainLoop fuel game turn (ℓ : Int) log = Run.exited game' turn' lim' brk log' ∧
      LogOK log' ∧ (∃ ext, log' = log ++ ext) ∧
      log'.length ≤ log.length + ℓ + 1 ∧
      (brk = true → log'.length = log.length + ℓ + 1) ∧
      (brk = false → game'.winner Cell.O = true ∨ game'.winner Cell.X = true) ∧
      game'.count Cell.O = (log'.length + 1) / 2 ∧ game'.count Cell.X = log'.length / 2 := by
  induction ℓ with
  | zero =>
    intro fuel game turn log hroom hfuel hturn hO hX hlog
    obtain ⟨f, rfl⟩ : ∃ f, fuel = f + 1 := ⟨fuel - 1, by omega⟩
    rw [mainLoop]
    by_cases hw : (!game.winner Cell.O && !game.winner Cell.X) = true
    · rw [if_pos hw]
      have hex : ∃ i j, game.at i j = Cell.E := exists_empty_of_count game (by omega)
      obtain ⟨i, j, hfb, hE⟩ := find_best_empty game turn hex
      simp only [hfb, setInt_coe, Nat.cast_zero, if_true]
      have hw' : game.winner Cell.O = false ∧ game.winner Cell.X = false := by
        simpa using hw
      have hcnt := counts_after_move game log.length i j hE hO hX
      rw [← hturn] at hcnt
      refine ⟨_, _, _, _, _, rfl, ?_, ⟨_, rfl⟩, ?_, ?_, ?_, ?_, ?_⟩
      · apply logOK_append log _ hlog
        exact ⟨hturn, hO, hX, hw'.1, hw'.2, hfb, i, j, rfl, rfl, hE, rfl⟩
      · simp
      · intro _
        simp
      · intro h
        exact absurd h (by decide)
      · rw [List.length_append, List.length_singleton]
        exact hcnt.1
      · rw [List.length_append, List.length_singleton]
        exact hcnt.2
    · rw [if_neg hw]
      refine ⟨_, _, _, _, _, rfl, hlog, ⟨[], by simp⟩, by omega, ?_, ?_, hO, hX⟩
      · intro h
        exact absurd h (by decide)
      · intro _
        cases h1 : game.winner Cell.O
        · cases h2 : game.winner Cell.X
          · rw [h1, h2] at hw
            exact absurd rfl hw
          · exact Or.inr rfl
        · exact Or.inl rfl
  | succ ℓ ih =>
    intro fuel game turn log hroom hfuel hturn hO hX hlog
    obtain ⟨f, rfl⟩ : ∃ f, fuel = f + 1 := ⟨fuel - 1, by omega⟩
    rw [mainLoop]
    by_cases hw : (!game.winner Cell.O && !game.winner Cell.X) = true
    · rw [if_pos hw]
      have hex : ∃ i j, game.at i j = Cell.E := exists_empty_of_count game (by omega)
      obtain ⟨i, j, hfb, hE⟩ := find_best_empty game turn hex
      have hne : ¬ (((ℓ + 1 : Nat) : Int) = 0) := by
        push_cast
        omega
      have hsub : (((ℓ + 1 : Nat) : Int) - 1) = (ℓ : Int) := by
        push_cast
        omega
      simp only [hfb, setInt_coe, if_neg hne, hsub]
      have hw' : game.winner Cell.O = false ∧ game.winner Cell.X = false := by
        simpa using hw
      have hcnt := counts_after_move game log.length i j hE hO hX
      rw [← hturn] at hcnt
      have hlog' : LogOK (log ++ [⟨game, turn, (i.val : Int), (j.val : Int), game.set i j turn⟩]) := by
        apply logOK_append log _ hlog
        exact ⟨hturn, hO, hX, hw'.1, hw'.2, hfb, i, j, rfl, rfl, hE, rfl⟩
      have hlen : (log ++ [(⟨game, turn, (i.val : Int), (j.val : Int), game.set i j turn⟩ : Played)]).length =
          log.length + 1 := by
        rw [List.length_append, List.length_singleton]
      obtain ⟨game', turn', lim', brk, log', hrun, hok, ⟨ext, hext⟩, hle, hbrk, hwin, hO', hX'⟩ :=
        ih f (game.set i j turn) turn.other
          (log ++ [⟨game, turn, (i.val : Int), (j.val : Int), game.set i j turn⟩])
          (by rw [hlen]; omega) (by omega)
          (by rw [hlen, hturn]; exact sideOf_succ log.length)
          (by rw [hlen]; exact hcnt.1) (by rw [hlen]; exact hcnt.2) hlog'
      rw [hlen] at hle hbrk
      refine ⟨game', turn', lim', brk, log', hrun, hok,
        ⟨[⟨game, turn, (i.val : Int), (j.val : Int), game.set i j turn⟩] ++ ext, ?_⟩,
        by omega, ?_, hwin, hO', hX'⟩
      · rw [hext, List.append_assoc]
      · intro h
        have := hbrk h
        omega
    · rw [if_neg hw]
      refine ⟨_, _, _, _, _, rfl, hlog, ⟨[], by simp⟩, by omega, ?_, ?_, hO, hX⟩
      · intro h
        exact absurd h (by decide)
      · intro _
        cases h1 : game.winner Cell.O
        · cases h2 : game.winner Cell.X
          · rw [h1, h2] at hw
            exact absurd rfl hw
          · exact Or.inr rfl
        · exact Or.inl rfl

/-- The initial board has no marks. -/
theorem init_count (c : Cell) (hc : c ≠ Cell.E) : Game.init.count c = 0 := by
  unfold Game.count
  rw [List.count_eq_zero]
  intro hmem
  obtain ⟨p, _, hp⟩ := List.mem_map.mp hmem
  exact hc hp.symm

/-- The initial board has no completed line. -/
theorem init_winner (c : Cell) (hc : c ≠ Cell.E) : Game.init.winner c = false := by
  cases h : Game.init.winner c
  · rfl
  · obtain ⟨l, hl⟩ := (winner_iff Game.init c hc).mp h
    exact absurd (hl 0).symm hc

/-- The function `main` with an initial `iteration_limit` of `L <= 80`: the loop
is left after at most `L + 1` passes, all of which satisfy `EntryOK`. -/
theorem mainRun_exits (L : Nat) (hL : L ≤ 80) (fuel : Nat) (hfuel : L + 1 ≤ fuel) :
    ∃ game turn lim brk log,
      mainRun (L : Int) fuel = Run.exited game turn lim brk log ∧
      LogOK log ∧ log.length ≤ L + 1 ∧
      (brk = true → log.length = L + 1) ∧
      (brk = false → game.winner Cell.O = true ∨ game.winner Cell.X = true) ∧
      game.count Cell.O = (log.length + 1) / 2 ∧ game.count Cell.X = log.length / 2 := by
  obtain ⟨game, turn, lim, brk, log, hrun, hok, _, hle, hbrk, hwin, hO, hX⟩ :=
    mainLoop_exits L fuel Game.init Cell.O [] (by simpa using hL) hfuel rfl
      (init_count Cell.O (by decide)) (init_count Cell.X (by decide))
      (by intro k e hk; simp at hk)
  refine ⟨game, turn, lim, brk, log, hrun, hok, ?_, ?_, hwin, hO, hX⟩
  · simpa using hle
  · intro h
    simpa using hbrk h

/-- With `iteration_limit = 0` the loop makes one pass and is left by `break`. -/
theorem mainRun_zero (fuel : Nat) (hfuel : 1 ≤ fuel) :
    ∃ (i j : Fin BoardSize),
      mainRun 0 fuel = Run.exited (Game.init.set i j Cell.O) Cell.O (-1) true
        [⟨Game.init, Cell.O, (i.val : Int), (j.val : Int), Game.init.set i j Cell.O⟩] := by
  obtain ⟨f, rfl⟩ : ∃ f, fuel = f + 1 := ⟨fuel - 1, by omega⟩
  obtain ⟨i, j, hfb, _⟩ := find_best_empty Game.init Cell.O ⟨0, 0, rfl⟩
  refine ⟨i, j, ?_⟩
  unfold mainRun
  rw [mainLoop]
  have hw : (!Game.init.winner Cell.O && !Game.init.winner Cell.X) = true := by
    rw [init_winner Cell.O (by decide), init_winner Cell.X (by decide)]
    rfl
  rw [if_pos hw]
  simp only [hfb, setInt_coe, if_true]
  rfl

/-- Appending the pass made on the last board keeps a log chained. -/
theorem chained_append (log : List Played) : ∀ (start : Game) (e : Played),
    Chained start log → e.before = lastBoard start log →
    Chained start (log ++ [e]) ∧ lastBoard start (log ++ [e]) = e.after := by
  induction log with
  | nil =>
    intro start e _ he
    exact ⟨⟨he, trivial⟩, rfl⟩
  | cons a rest ih =>
    intro start e hch he
    obtain ⟨h1, h2⟩ := ih a.after e hch.2 he
    exact ⟨⟨hch.1, h1⟩, h2⟩

/-- The log of the loop of `main` is chained and ends on the final board. -/
theorem mainLoop_chained (f : Nat) : ∀ (g : Game) (t : Cell) (lim : Int) (log : List Played)
    (start : Game), Chained start log → lastBoard start log = g →
    ∀ (g' : Game) (t' : Cell) (lim' : Int) (brk : Bool) (log' : List Played),
    mainLoop f g t lim log = Run.exited g' t' lim' brk log' →
    Chained start log' ∧ lastBoard start log' = g' := by
  induction f with
  | zero =>
    intro g t lim log start _ _ g' t' lim' brk log' h
    rw [mainLoop] at h
    cases h
  | succ f ih =>
    intro g t lim log start hch hlast g' t' lim' brk log' h
    rw [mainLoop] at h
    split at h
    · split at h
      · rename_i i j _ _
        split at h
        · rename_i g2 _
          have happ := chained_append log start ⟨g, t, i, j, g2⟩ hch hlast.symm
          split at h
          · injection h with h1 h2 h3 h4 h5
            rw [← h5, ← h1]
            exact happ
          · exact ih _ _ _ _ start happ.1 happ.2 g' t' lim' brk log' h
        · cases h
      · cases h
    · injection h with h1 h2 h3 h4 h5
      rw [← h5, ← h1]
      exact ⟨hch, hlast⟩

/-- The log of a run of `main` is chained from the all-empty board and ends on
the final board. -/
theorem mainRun_chained (lim : Int) (fuel : Nat) (g : Game) (t : Cell) (lim' : Int)
    (brk : Bool) (log : List Played)
    (h : mainRun lim fuel = Run.exited g t lim' brk log) :
    Chained Game.init log ∧ lastBoard Game.init log = g :=
  mainLoop_chained fuel Game.init Cell.O lim [] Game.init trivial rfl g t lim' brk log h

/-! ## The loop of `main`: termination, legality of moves, alternation -/

/-- For every iteration limit `L` with `0 <= L <= 80`, the loop of `main`
started on the all-empty board is left after at most `L + 1` moves (at most 51
for the limit 50 of `main`); with `L = 0` exactly one move is made and the final
board has exactly one non-empty cell. -/
theorem main_terminates (L : Nat) (hL : L ≤ 80) (fuel : Nat) (hfuel : L + 1 ≤ fuel) :
    ∃ game turn lim brk log,
      mainRun (L : Int) fuel = Run.exited game turn lim brk log ∧
      log.length ≤ L + 1 ∧
      (L = 50 → (L : Int) = mainLimit ∧ log.length ≤ 51) ∧
      (L = 0 → log.length = 1 ∧ game.count Cell.O + game.count Cell.X = 1 ∧
        game.count Cell.E = 80) := by
  obtain ⟨game, turn, lim, brk, log, hrun, _, hle, _, _, hO, hX⟩ :=
    mainRun_exits L hL fuel hfuel
  refine ⟨game, turn, lim, brk, log, hrun, hle, ?_, ?_⟩
  · intro h50
    subst h50
    exact ⟨rfl, hle⟩
  · intro h0
    subst h0
    obtain ⟨i, j, hz⟩ := mainRun_zero fuel hfuel
    rw [Nat.cast_zero, hz] at hrun
    injection hrun with h1 _ _ _ h5
    have hlen : log.length = 1 := by rw [← h5]; rfl
    have ht := count_total game
    rw [hlen] at hO hX
    refine ⟨hlen, ?_, ?_⟩ <;> omega

/-- C14: in every run of the loop of `main` (all-empty board, O first, limit
50), every move returned by `find_best` and applied with `game.at(i, j) = turn`
has in-range coordinates and targets a cell that is empty at that moment; the
board is never full when `find_best` is called (it holds `k <= 50` marks before
move `k`, and at most 51 of the 81 cells are ever marked), so no occupied cell
is overwritten and `find_best_simple` never returns unassigned coordinates. -/
theorem main_moves_legal (fuel : Nat) (hfuel : 51 ≤ fuel) :
    ∃ game turn lim brk log,
      mainRun mainLimit fuel = Run.exited game turn lim brk log ∧
      log.length ≤ 51 ∧ game.count Cell.O + game.count Cell.X ≤ 51 ∧
      ∀ (k : Nat) (e : Played), log[k]? = some e →
        find_best e.before e.turn = ⟨some e.i, some e.j⟩ ∧
        (0 ≤ e.i ∧ e.i < 9 ∧ 0 ≤ e.j ∧ e.j < 9) ∧
        e.before.atInt e.i e.j = some Cell.E ∧
        e.before.setInt e.i e.j e.turn = some e.after ∧
        (e.before.count Cell.O + e.before.count Cell.X = k ∧ k ≤ 50) ∧
        (∃ i j, e.before.at i j = Cell.E) ∧
        ((find_best_simple e.before e.turn).i ≠ none ∧
          (find_best_simple e.before e.turn).j ≠ none ∧
          (find_best_simple e.before e.turn.other).i ≠ none ∧
          (find_best_simple e.before e.turn.other).j ≠ none) := by
  obtain ⟨game, turn, lim, brk, log, hrun, hok, hle, _, _, hO, hX⟩ :=
    mainRun_exits 50 (by decide) fuel hfuel
  refine ⟨game, turn, lim, brk, log, hrun, hle, by omega, ?_⟩
  intro k e hk
  obtain ⟨hturn, hbO, hbX, _, _, hfb, i, j, hi, hj, hE, hafter⟩ := hok k e hk
  have hklt : k < log.length := by
    obtain ⟨h, _⟩ := List.getElem?_eq_some.mp hk
    exact h
  have hi9 := i.isLt
  have hj9 := j.isLt
  simp only [BoardSize] at hi9 hj9
  obtain ⟨p, _, hres, _, _⟩ := find_best_simple_first_max e.before e.turn ⟨i, j, hE⟩
  obtain ⟨q, _, hres', _, _⟩ := find_best_simple_first_max e.before e.turn.other ⟨i, j, hE⟩
  refine ⟨hfb, ?_, ?_, ?_, ⟨by omega, by omega⟩, ⟨i, j, hE⟩, ?_⟩
  · rw [hi, hj]
    omega
  · rw [hi, hj, atInt_coe, hE]
  · rw [hi, hj, setInt_coe, hafter]
  · rw [hres, hres']
    simp

/-- Witness for `main_moves_legal`: fuel 51. -/
theorem main_moves_legal_witness :
    51 ≤ 51 ∧
    ∃ game turn lim brk log,
      mainRun mainLimit 51 = Run.exited game turn lim brk log ∧
      log.length ≤ 51 ∧ game.count Cell.O + game.count Cell.X ≤ 51 ∧
      ∀ (k : Nat) (e : Played), log[k]? = some e →
        find_best e.before e.turn = ⟨some e.i, some e.j⟩ ∧
        (0 ≤ e.i ∧ e.i < 9 ∧ 0 ≤ e.j ∧ e.j < 9) ∧
        e.before.atInt e.i e.j = some Cell.E ∧
        e.before.setInt e.i e.j e.turn = some e.after ∧
        (e.before.count Cell.O + e.before.count Cell.X = k ∧ k ≤ 50) ∧
        (∃ i j, e.before.at i j = Cell.E) ∧
        ((find_best_simple e.before e.turn).i ≠ none ∧
          (find_best_simple e.before e.turn).j ≠ none ∧
          (find_best_simple e.before e.turn.other).i ≠ none ∧
          (find_best_simple e.before e.turn.other).j ≠ none) :=
  ⟨by decide, main_moves_legal 51 (by decide)⟩

/-- C19: in every run of the loop of `main`, the board before move `k` (after
`k` moves) has exactly `k` non-empty cells, of which `ceil(k / 2)` are O and
`floor(k / 2)` are X; O moves first and the sides alternate, so the number of O
marks exceeds the number of X marks by 0 or 1; the same holds of the board
after the move and of the final board; each move starts on the board left by
the move before, the first on the all-empty board. -/
theorem main_mark_counts (fuel : Nat) (hfuel : 51 ≤ fuel) :
    ∃ game turn lim brk log,
      mainRun mainLimit fuel = Run.exited game turn lim brk log ∧
      (∀ (k : Nat) (e : Played), log[k]? = some e →
        e.turn = (if k % 2 = 0 then Cell.O else Cell.X) ∧
        e.before.count Cell.O + e.before.count Cell.X = k ∧
        e.before.count Cell.E = 81 - k ∧
        e.before.count Cell.O = (k + 1) / 2 ∧ e.before.count Cell.X = k / 2 ∧
        (e.before.count Cell.O = e.before.count Cell.X ∨
          e.before.count Cell.O = e.before.count Cell.X + 1) ∧
        e.after.count Cell.O = (k + 2) / 2 ∧ e.after.count Cell.X = (k + 1) / 2) ∧
      (Chained Game.init log ∧ lastBoard Game.init log = game) ∧
      game.count Cell.O + game.count Cell.X = log.length ∧
      game.count Cell.O = (log.length + 1) / 2 ∧ game.count Cell.X = log.length / 2 ∧
      (game.count Cell.O = game.count Cell.X ∨ game.count Cell.O = game.count Cell.X + 1) := by
  obtain ⟨game, turn, lim, brk, log, hrun, hok, _, _, _, hO, hX⟩ :=
    mainRun_exits 50 (by decide) fuel hfuel
  refine ⟨game, turn, lim, brk, log, hrun, ?_,
    mainRun_chained _ fuel game turn lim brk log hrun, by omega, hO, hX, by omega⟩
  intro k e hk
  obtain ⟨hturn, hbO, hbX, _, _, _, i, j, _, _, hE, hafter⟩ := hok k e hk
  have ht := count_total e.before
  have hcnt := counts_after_move e.before k i j hE hbO hbX
  rw [← hturn, ← hafter] at hcnt
  refine ⟨hturn, by omega, by omega, hbO, hbX, by omega, hcnt.1, hcnt.2⟩

/-- Witness for `main_mark_counts`: fuel 51. -/
theorem main_mark_counts_witness :
    51 ≤ 51 ∧
    ∃ game turn lim brk log,
      mainRun mainLimit 51 = Run.exited game turn lim brk log ∧
      (∀ (k : Nat) (e : Played), log[k]? = some e →
        e.turn = (if k % 2 = 0 then Cell.O else Cell.X) ∧
        e.before.count Cell.O + e.before.count Cell.X = k ∧
        e.before.count Cell.E = 81 - k ∧
        e.before.count Cell.O = (k + 1) / 2 ∧ e.before.count Cell.X = k / 2 ∧
        (e.before.count Cell.O = e.before.count Cell.X ∨
          e.before.count Cell.O = e.before.count Cell.X + 1) ∧
        e.after.count Cell.O = (k + 2) / 2 ∧ e.after.count Cell.X = (k + 1) / 2) ∧
      (Chained Game.init log ∧ lastBoard Game.init log = game) ∧
      game.count Cell.O + game.count Cell.X = log.length ∧
      game.count Cell.O = (log.length + 1) / 2 ∧ game.count Cell.X = log.length / 2 ∧
      (game.count Cell.O = game.count Cell.X ∨ game.count Cell.O = game.count Cell.X + 1) :=
  ⟨by decide, main_mark_counts 51 (by decide)⟩

/-! ## Scores from per-line gains -/

/-- The meaning of `blockedFor`. -/
theorem blockedFor_iff (g : Game) (s : Cell) (l : Line) :
    blockedFor g s l = true ↔ ∃ k, g.lineCell l k ≠ Cell.E ∧ g.lineCell l k ≠ s := by
  unfold blockedFor
  rw [List.any_eq_true]
  constructor
  · rintro ⟨c, hc, h⟩
    obtain ⟨k, rfl⟩ := (mem_lineCells g l c).mp hc
    simp only [Bool.and_eq_true, decide_eq_true_eq] at h
    exact ⟨k, h⟩
  · rintro ⟨k, h⟩
    refine ⟨g.lineCell l k, (mem_lineCells g l _).mpr ⟨k, rfl⟩, ?_⟩
    simp only [Bool.and_eq_true, decide_eq_true_eq]
    exact h

/-- The contribution of a line after an empty cell was marked for `s`. -/
theorem contribution_set (g : Game) (s : Cell) (hs : s ≠ Cell.E)
    (p : Fin BoardSize × Fin BoardSize) (hE : g.at p.1 p.2 = Cell.E) (l : Line) :
    contribution ((g.set p.1 p.2 s).rankOf s l) =
      contribution (g.rankOf s l) + (if ∃ k, l.coord k = p then lineGain g s l else 0) := by
  by_cases hon : ∃ k, l.coord k = p
  · rw [if_pos hon]
    obtain ⟨k, hk⟩ := hon
    have h := rankOf_set_on g s hs p.1 p.2 hE l k hk
    unfold lineGain
    by_cases hb : ∃ k', g.lineCell l k' ≠ Cell.E ∧ g.lineCell l k' ≠ s
    · rw [if_pos ((blockedFor_iff g s l).mpr hb), (h.1 hb).1, (h.1 hb).2]
      simp
    · have hbf : ¬ (blockedFor g s l = true) := fun hc => hb ((blockedFor_iff g s l).mp hc)
      rw [if_neg hbf, h.2 hb]
      ring
  · rw [if_neg hon]
    push_neg at hon
    rw [rankOf_set_off g s s p.1 p.2 l hon]
    simp

/-- A sum over a list without repetitions that picks one entry. -/
theorem sum_pick {α : Type} [DecidableEq α] (f : α → Int) (a : α) (ks : List α)
    (hnd : ks.Nodup) (ha : a ∈ ks) :
    (ks.map fun k => if a = k then f k else 0).sum = f a := by
  induction ks with
  | nil => exact absurd ha (List.not_mem_nil a)
  | cons k rest ih =>
    have hnd' := List.nodup_cons.mp hnd
    simp only [List.map_cons, List.sum_cons]
    by_cases hk : a = k
    · subst hk
      rw [if_pos rfl]
      have hzero : (rest.map fun k => if a = k then f k else 0).sum = 0 := by
        apply List.sum_eq_zero
        intro x hx
        obtain ⟨k', hk', rfl⟩ := List.mem_map.mp hx
        have hne : a ≠ k' := fun h => hnd'.1 (h ▸ hk')
        rw [if_neg hne]
      rw [hzero, add_zero]
    · rw [if_neg hk, zero_add]
      rcases List.mem_cons.mp ha with h | h
      · exact absurd h hk
      · exact ih hnd'.2 h

/-- Looking up an entry of a table built over the loop indices. -/
theorem getD_map_finRange (f : Fin BoardSize → Int) (i : Fin BoardSize) :
    ((List.finRange BoardSize).map f).getD i.val 0 = f i := by
  have hlt : i.val < ((List.finRange BoardSize).map f).length := by
    rw [List.length_map, List.length_finRange]
    exact i.isLt
  rw [List.getD_eq_getElem _ _ hlt, List.getElem_map, List.getElem_finRange]
  rfl

/-- The cells of the main diagonal. -/
theorem onLine_diagonal (p : Fin BoardSize × Fin BoardSize) :
    (∃ k, Line.diagonal.coord k = p) ↔ p.1 = p.2 := by
  constructor
  · rintro ⟨k, rfl⟩
    rfl
  · intro h
    exact ⟨p.1, Prod.ext rfl h⟩

/-- The cells of the anti-diagonal. -/
theorem onLine_backDiagonal (p : Fin BoardSize × Fin BoardSize) :
    (∃ k, Line.backDiagonal.coord k = p) ↔ p.2 = backIdx p.1 := by
  constructor
  · rintro ⟨k, rfl⟩
    rfl
  · intro h
    exact ⟨p.1, Prod.ext rfl h.symm⟩

/-- The cells of a row. -/
theorem onLine_row (p : Fin BoardSize × Fin BoardSize) (i : Fin BoardSize) :
    (∃ k, (Line.row i).coord k = p) ↔ p.1 = i := by
  constructor
  · rintro ⟨k, rfl⟩
    rfl
  · intro h
    exact ⟨p.2, Prod.ext h.symm rfl⟩

/-- The cells of a column. -/
theorem onLine_column (p : Fin BoardSize × Fin BoardSize) (j : Fin BoardSize) :
    (∃ k, (Line.column j).coord k = p) ↔ p.2 = j := by
  constructor
  · rintro ⟨k, rfl⟩
    rfl
  · intro h
    exact ⟨p.1, Prod.ext rfl h.symm⟩

/-- The cells a line passes through are the cells read by its rank scan. -/
theorem through_iff (l : Line) (p : Fin BoardSize × Fin BoardSize) :
    l.through p = true ↔ ∃ k, l.coord k = p := by
  cases l with
  | diagonal => rw [onLine_diagonal]; simp [Line.through]
  | backDiagonal => rw [onLine_backDiagonal]; simp [Line.through]
  | row i => rw [onLine_row]; simp [Line.through]
  | column j => rw [onLine_column]; simp [Line.through]

/-- The score after marking an empty cell for `s` is the score before plus the
gains of the lines through the cell. -/
theorem moveRate_quick (g : Game) (s : Cell) (hs : s ≠ Cell.E)
    (p : Fin BoardSize × Fin BoardSize) (hE : g.at p.1 p.2 = Cell.E) :
    moveRate g s p = quickRate (gainTable g s) p := by
  unfold moveRate
  rw [rate_eq_sum]
  have hmap : (allLines.map fun l => contribution ((g.set p.1 p.2 s).rankOf s l)) =
      allLines.map fun l => contribution (g.rankOf s l) +
        (if ∃ k, l.coord k = p then lineGain g s l else 0) :=
    List.map_congr_left (fun l _ => contribution_set g s hs p hE l)
  rw [hmap, List.sum_map_add, ← rate_eq_sum]
  unfold quickRate gainTable
  simp only [getD_map_finRange]
  have hrows : (((List.finRange BoardSize).map Line.row).map fun l =>
      if ∃ k, l.coord k = p then lineGain g s l else 0).sum = lineGain g s (Line.row p.1) := by
    rw [List.map_map]
    refine Eq.trans ?_ (sum_pick (fun i => lineGain g s (Line.row i)) p.1
      (List.finRange BoardSize) (List.nodup_finRange _) (List.mem_finRange _))
    congr 1
    apply List.map_congr_left
    intro i _
    simp only [Function.comp, onLine_row]
  have hcols : (((List.finRange BoardSize).map Line.column).map fun l =>
      if ∃ k, l.coord k = p then lineGain g s l else 0).sum =
        lineGain g s (Line.column p.2) := by
    rw [List.map_map]
    refine Eq.trans ?_ (sum_pick (fun j => lineGain g s (Line.column j)) p.2
      (List.finRange BoardSize) (List.nodup_finRange _) (List.mem_finRange _))
    congr 1
    apply List.map_congr_left
    intro j _
    simp only [Function.comp, onLine_column]
  unfold allLines
  rw [List.map_cons, List.map_cons, List.map_append, List.sum_cons, List.sum_cons,
    List.sum_append, hrows, hcols]
  simp only [onLine_diagonal, onLine_backDiagonal]
  ring

/-- `find_best_simple` computed from the table of the board and the side. -/
theorem find_best_simple_quick (g : Game) (s : Cell) (hs : s ≠ Cell.E) (t : GainTable)
    (ht : gainTable g s = t) : find_best_simple g s = quickFind g t := by
  rw [find_best_simple_eq]
  unfold quickFind
  congr 1
  funext best p
  unfold bestStep quickStep
  by_cases hE : g.at p.1 p.2 = Cell.E
  · rw [if_neg (not_not.mpr hE), if_neg (not_not.mpr hE)]
    have h := moveRate_quick g s hs p hE
    rw [ht] at h
    unfold moveRate at h
    simp only [h]
  · rw [if_pos hE, if_pos hE]

/-- `find_best` computed from the tables of the board for the two sides. -/
theorem find_best_quick (g : Game) (s : Cell) (hs : s ≠ Cell.E) (mine foe : GainTable)
    (hmine : gainTable g s = mine) (hfoe : gainTable g s.other = foe) :
    find_best g s = quickBest g mine foe := by
  have hso : s.other ≠ Cell.E := by
    unfold Cell.other
    split <;> decide
  unfold find_best quickBest
  rw [find_best_simple_quick g s hs mine hmine, find_best_simple_quick g s.other hso foe hfoe]

/-- A board with a completed line for `s` scores at least 81 for `s`. -/
theorem rate_ge_of_winner (g : Game) (s : Cell) (hs : s ≠ Cell.E) (hw : g.winner s = true) :
    81 ≤ g.rate s := by
  obtain ⟨l0, hl0⟩ := (winner_iff g s hs).mp hw
  have h9 : g.rankOf s l0 = 9 := by
    have := (rankOf_eq_size g s hs l0).mpr hl0
    simpa [BoardSize] using this
  rw [rate_eq_sum]
  have hzero : (allLines.map fun _ => (0 : Int)).sum = 0 := by decide
  have h := sum_add_le_of_mem allLines (fun _ => 0) (fun l => contribution (g.rankOf s l)) 81 l0
    (mem_allLines l0) (fun l _ => contribution_nonneg _ (rankOf_bounds g s l).1)
    (by
      show (0 : Int) + 81 ≤ contribution (g.rankOf s l0)
      rw [h9]
      decide)
  rw [hzero] at h
  omega

/-- A board whose score for `s` is below 81 has no completed line for `s`. -/
theorem not_winner_of_base (g : Game) (s : Cell) (hs : s ≠ Cell.E) (t : GainTable)
    (ht : gainTable g s = t) (hbase : t.base < 81) : g.winner s = false := by
  cases hw : g.winner s
  · rfl
  · have h := rate_ge_of_winner g s hs hw
    have hb : t.base = g.rate s := by rw [← ht]; rfl
    omega

/-! ## Boards given by bit masks -/

/-- The initial board as a board of masks. -/
theorem init_eq_ofMasks : Game.init = Game.ofMasks 0 0 := by
  unfold Game.init Game.ofMasks
  congr 1
  funext k
  simp

/-- Marking a cell for O sets its bit in the O mask. -/
theorem ofMasks_set_O (o x o' : Nat) (i j : Fin BoardSize)
    (h : o ||| 2 ^ (i.val * 9 + j.val) = o') :
    (Game.ofMasks o x).set i j Cell.O = Game.ofMasks o' x := by
  subst h
  unfold Game.set Game.ofMasks
  congr 1
  funext k
  by_cases hk : k = idx i j
  · subst hk
    rw [Function.update_same]
    simp [idx, Nat.testBit_two_pow_self]
  · rw [Function.update_noteq hk]
    have hne : ¬ (i.val * 9 + j.val = k.val) := by
      intro h
      apply hk
      apply Fin.ext
      simp only [idx, BoardSize]
      omega
    simp [Nat.testBit_two_pow, hne]

/-- Marking an empty cell for X sets its bit in the X mask. -/
theorem ofMasks_set_X (o x x' : Nat) (i j : Fin BoardSize)
    (hfree : o.testBit (i.val * 9 + j.val) = false)
    (h : x ||| 2 ^ (i.val * 9 + j.val) = x') :
    (Game.ofMasks o x).set i j Cell.X = Game.ofMasks o x' := by
  subst h
  unfold Game.set Game.ofMasks
  congr 1
  funext k
  by_cases hk : k = idx i j
  · subst hk
    rw [Function.update_same]
    simp [idx, Nat.testBit_two_pow_self, hfree]
  · rw [Function.update_noteq hk]
    have hne : ¬ (i.val * 9 + j.val = k.val) := by
      intro h
      apply hk
      apply Fin.ext
      simp only [idx, BoardSize]
      omega
    simp [Nat.testBit_two_pow, hne]

/-- The move of `find_best` and the absence of completed lines, from the tables
of the board for the two sides. -/
theorem move_sound (g : Game) (t : Cell) (mine foe : GainTable) (i j : Fin BoardSize)
    (ht : t = Cell.O ∨ t = Cell.X)
    (hmine : gainTable g t = mine) (hfoe : gainTable g t.other = foe)
    (hbest : quickBest g mine foe = ⟨some (i.val : Int), some (j.val : Int)⟩)
    (hbase : mine.base < 81 ∧ foe.base < 81) :
    find_best g t = ⟨some (i.val : Int), some (j.val : Int)⟩ ∧
      g.winner Cell.O = false ∧ g.winner Cell.X = false := by
  have htE : t ≠ Cell.E := by rcases ht with rfl | rfl <;> decide
  refine ⟨by rw [find_best_quick g t htE mine foe hmine hfoe, hbest], ?_⟩
  rcases ht with rfl | rfl
  · exact ⟨not_winner_of_base g Cell.O (by decide) mine hmine hbase.1,
      not_winner_of_base g Cell.X (by decide) foe hfoe hbase.2⟩
  · exact ⟨not_winner_of_base g Cell.O (by decide) foe hfoe hbase.2,
      not_winner_of_base g Cell.X (by decide) mine hmine hbase.1⟩

/-- One pass through the loop of `main` that is not the last. -/
theorem mainLoop_step (f f' : Nat) (g g' : Game) (t t' : Cell) (i j : Fin BoardSize)
    (lim lim' : Int) (log : List Played)
    (hmove : find_best g t = ⟨some (i.val : Int), some (j.val : Int)⟩ ∧
      g.winner Cell.O = false ∧ g.winner Cell.X = false)
    (hset : g.set i j t = g') (ht' : t.other = t') (hf : f' = f + 1) (hlim : lim ≠ 0)
    (hlim' : lim - 1 = lim') :
    mainLoop f' g t lim log =
      mainLoop f g' t' lim' (log ++ [⟨g, t, (i.val : Int), (j.val : Int), g'⟩]) := by
  subst hf
  rw [mainLoop]
  have hw : (!g.winner Cell.O && !g.winner Cell.X) = true := by
    rw [hmove.2.1, hmove.2.2]
    rfl
  rw [if_pos hw]
  simp only [hmove.1, setInt_coe, if_neg hlim, hset, ht', hlim']

/-! ## Boards on which no line can be completed -/

/-- The meaning of `Game.dead`. -/
theorem dead_iff (g : Game) :
    g.dead = true ↔
      ∀ l : Line, (∃ k, g.lineCell l k = Cell.O) ∧ (∃ k, g.lineCell l k = Cell.X) := by
  unfold Game.dead
  rw [List.all_eq_true]
  constructor
  · intro h l
    have hl := h l (mem_allLines l)
    simp only [Bool.and_eq_true, List.any_eq_true, decide_eq_true_eq] at hl
    obtain ⟨⟨c, hc, rfl⟩, ⟨d, hd, rfl⟩⟩ := hl
    exact ⟨(mem_lineCells g l _).mp hc, (mem_lineCells g l _).mp hd⟩
  · intro h l _
    simp only [Bool.and_eq_true, List.any_eq_true, decide_eq_true_eq]
    obtain ⟨⟨k, hk⟩, ⟨k', hk'⟩⟩ := h l
    exact ⟨⟨_, (mem_lineCells g l _).mpr ⟨k, hk⟩, rfl⟩, ⟨_, (mem_lineCells g l _).mpr ⟨k', hk'⟩, rfl⟩⟩

/-- No side has a completed line on a dead board. -/
theorem dead_winner (g : Game) (hd : g.dead = true) (s : Cell) (hs : s ≠ Cell.E) :
    g.winner s = false := by
  cases hw : g.winner s
  · rfl
  · exfalso
    obtain ⟨l, hl⟩ := (winner_iff g s hs).mp hw
    obtain ⟨⟨k, hk⟩, ⟨k', hk'⟩⟩ := (dead_iff g).mp hd l
    have h1 : s = Cell.O := by rw [← hl k, hk]
    have h2 : s = Cell.X := by rw [← hl k', hk']
    rw [h1] at h2
    exact absurd h2 (by decide)

/-- A dead board stays dead when an empty cell is marked. -/
theorem dead_set (g : Game) (hd : g.dead = true) (i j : Fin BoardSize) (c : Cell)
    (hE : g.at i j = Cell.E) : (g.set i j c).dead = true := by
  rw [dead_iff] at hd ⊢
  intro l
  obtain ⟨⟨k, hk⟩, ⟨k', hk'⟩⟩ := hd l
  have keep : ∀ (k : Fin BoardSize) (d : Cell), d ≠ Cell.E → g.lineCell l k = d →
      (g.set i j c).lineCell l k = d := by
    intro k d hdE hkd
    rw [lineCell_set_eq]
    have hne : l.coord k ≠ (i, j) := by
      intro heq
      have : g.lineCell l k = Cell.E := by
        unfold Game.lineCell
        rw [heq]
        exact hE
      rw [this] at hkd
      exact hdE hkd.symm
    rw [if_neg hne, hkd]
  exact ⟨⟨k, keep k Cell.O (by decide) hk⟩, ⟨k', keep k' Cell.X (by decide) hk'⟩⟩

/-- On a board without an empty cell `find_best` returns unassigned
coordinates. -/
theorem find_best_full (g : Game) (s : Cell) (hfull : ∀ i j, g.at i j ≠ Cell.E) :
    find_best g s = ⟨none, none⟩ := by
  have hnone : ∀ c, find_best_simple g c = ⟨none, none, -1⟩ := by
    intro c
    rw [find_best_simple_eq]
    rcases best_fold_inv g c allCoords with ⟨_, hfold⟩ | ⟨_, p, _, _, hp, _, _, _⟩
    · exact hfold
    · exact absurd hp (hfull p.1 p.2)
  unfold find_best
  rw [hnone s, hnone s.other]
  rfl

/-- The number of empty cells after an empty cell was marked for a side. -/
theorem count_empty_set (g : Game) (c : Cell) (hc : c = Cell.O ∨ c = Cell.X)
    (i j : Fin BoardSize) (hE : g.at i j = Cell.E) :
    (g.set i j c).count Cell.E + 1 = g.count Cell.E := by
  have h1 := count_total g
  have h2 := count_total (g.set i j c)
  rcases hc with rfl | rfl
  · have h3 := count_set_self g Cell.O (by decide) i j hE
    have h4 := count_set_other g Cell.O Cell.X (by decide) (by decide) i j hE
    omega
  · have h3 := count_set_self g Cell.X (by decide) i j hE
    have h4 := count_set_other g Cell.X Cell.O (by decide) (by decide) i j hE
    omega

/-- The other side is O or X. -/
theorem other_cases (c : Cell) : c.other = Cell.O ∨ c.other = Cell.X := by
  unfold Cell.other
  split
  · exact Or.inl rfl
  · exact Or.inr rfl

/-- The loop of `main` on a dead board with `d` empty cells and an iteration
limit of at least `d`: after `d` further passes the board is full, the loop
condition still holds, and `find_best` returns unassigned coordinates. -/
theorem dead_run (d : Nat) : ∀ (fuel : Nat) (game : Game) (turn : Cell) (lim : Int)
    (log : List Played),
    game.dead = true → game.count Cell.E = d → (turn = Cell.O ∨ turn = Cell.X) →
    (d : Int) ≤ lim → d + 1 ≤ fuel →
    ∃ log', log'.length = log.length + d ∧
      mainLoop fuel game turn lim log = Run.undefined log' := by
  induction d with
  | zero =>
    intro fuel game turn lim log hd hcount _ _ hfuel
    obtain ⟨f, rfl⟩ : ∃ f, fuel = f + 1 := ⟨fuel - 1, by omega⟩
    refine ⟨log, rfl, ?_⟩
    rw [mainLoop]
    have hw : (!game.winner Cell.O && !game.winner Cell.X) = true := by
      rw [dead_winner game hd Cell.O (by decide), dead_winner game hd Cell.X (by decide)]
      rfl
    rw [if_pos hw, find_best_full game turn ((count_empty_zero_iff game).mp hcount)]
  | succ d ih =>
    intro fuel game turn lim log hd hcount hturn hlim hfuel
    obtain ⟨f, rfl⟩ : ∃ f, fuel = f + 1 := ⟨fuel - 1, by omega⟩
    have hex : ∃ i j, game.at i j = Cell.E := by
      have ht := count_total game
      exact exists_empty_of_count game (by omega)
    obtain ⟨i, j, hfb, hE⟩ := find_best_empty game turn hex
    have hlim0 : lim ≠ 0 := by
      push_cast at hlim
      omega
    rw [mainLoop_step f (f + 1) game (game.set i j turn) turn turn.other i j lim (lim - 1) log
      ⟨hfb, dead_winner game hd Cell.O (by decide), dead_winner game hd Cell.X (by decide)⟩
      rfl rfl rfl hlim0 rfl]
    have hcount' := count_empty_set game turn hturn i j hE
    obtain ⟨log', hlen, hrun⟩ := ih f (game.set i j turn) turn.other (lim - 1)
      (log ++ [⟨game, turn, (i.val : Int), (j.val : Int), game.set i j turn⟩])
      (dead_set game hd i j turn hE) (by omega) (other_cases turn)
      (by push_cast at hlim; omega) (by omega)
    refine ⟨log', ?_, hrun⟩
    rw [hlen, List.length_append, List.length_singleton]
    omega

/-- More fuel does not change a run that did not run out of fuel. -/
theorem mainLoop_fuel_mono (f : Nat) : ∀ (g : Game) (t : Cell) (lim : Int) (log : List Played)
    (r : Run), mainLoop f g t lim log = r → (∀ lg, r ≠ Run.outOfFuel lg) →
    ∀ k, mainLoop (f + k) g t lim log = r := by
  induction f with
  | zero =>
    intro g t lim log r h hr
    exfalso
    rw [mainLoop] at h
    exact hr log h.symm
  | succ f ih =>
    intro g t lim log r h hr k
    have hk : f + 1 + k = (f + k) + 1 := by omega
    rw [hk, mainLoop]
    rw [mainLoop] at h
    split
    · rename_i hw
      rw [if_pos hw] at h
      split
      · rename_i i j hi hj
        simp only [hi, hj] at h
        split
        · rename_i g' hg'
          simp only [hg'] at h
          split
          · rename_i hl
            rw [if_pos hl] at h
            exact h
          · rename_i hl
            rw [if_neg hl] at h
            exact ih _ _ _ _ r h hr k
        · rename_i hg'
          simp only [hg'] at h
          exact h
      · rename_i hnone
        split at h
        · rename_i i j hi hj
          exact (hnone i j hi hj).elim
        · exact h
    · rename_i hw
      rw [if_neg hw] at h
      exact h

/-! ## The first 19 moves of the game played by `main` -/

/-- Move 0 of the game played by `main`: O marks `(4, 4)`, and no side has
a completed line before the move. -/
theorem move_0 :
    find_best (Game.ofMasks 0 0) Cell.O = ⟨some 4, some 4⟩ ∧
      (Game.ofMasks 0 0).winner Cell.O = false ∧
      (Game.ofMasks 0 0).winner Cell.X = false :=
  move_sound (Game.ofMasks 0 0) Cell.O
    ⟨0, 1, 1, [1, 1, 1, 1, 1, 1, 1, 1, 1], [1, 1, 1, 1, 1, 1, 1, 1, 1]⟩
    ⟨0, 1, 1, [1, 1, 1, 1, 1, 1, 1, 1, 1], [1, 1, 1, 1, 1, 1, 1, 1, 1]⟩
    4 4 (Or.inl rfl) (by decide!) (by decide!) (by decide!) (by decide)

/-- Move 1 of the game played by `main`: X marks `(0, 0)`, and no side has
a completed line before the move. -/
theorem move_1 :
    find_best (Game.ofMasks 1099511627776 0) Cell.X = ⟨some 0, some 0⟩ ∧
      (Game.ofMasks 1099511627776 0).winner Cell.O = false ∧
      (Game.ofMasks 1099511627776 0).winner Cell.X = false :=
  move_sound (Game.ofMasks 1099511627776 0) Cell.X
    ⟨0, 0, 0, [1, 1, 1, 1, 0, 1, 1, 1, 1], [1, 1, 1, 1, 0, 1, 1, 1, 1]⟩
    ⟨4, 1, 1, [1, 1, 1, 1, 1, 1, 1, 1, 1], [1, 1, 1, 1, 1, 1, 1, 1, 1]⟩
    0 0 (Or.inr rfl) (by decide!) (by decide!) (by decide!) (by decide)

/-- Move 2 of the game played by `main`: O marks `(1, 7)`, and no side has
a completed line before the move. -/
theorem move_2 :
    find_best (Game.ofMasks 1099511627776 1) Cell.O = ⟨some 1, some 7⟩ ∧
      (Game.ofMasks 1099511627776 1).winner Cell.O = false ∧
      (Game.ofMasks 1099511627776 1).winner Cell.X = false :=
  move_sound (Game.ofMasks 1099511627776 1) Cell.O
    ⟨3, 0, 1, [0, 1, 1, 1, 1, 1, 1, 1, 1], [0, 1, 1, 1, 1, 1, 1, 1, 1]⟩
    ⟨2, 0, 0, [1, 1, 1, 1, 0, 1, 1, 1, 1], [1, 1, 1, 1, 0, 1, 1, 1, 1]⟩
    1 7 (Or.inl rfl) (by decide!) (by decide!) (by decide!) (by decide)

/-- Move 3 of the game played by `main`: X marks `(2, 6)`, and no side has
a completed line before the move. -/
theorem move_3 :
    find_best (Game.ofMasks 1099511693312 1) Cell.X = ⟨some 2, some 6⟩ ∧
      (Game.ofMasks 1099511693312 1).winner Cell.O = false ∧
      (Game.ofMasks 1099511693312 1).winner Cell.X = false :=
  move_sound (Game.ofMasks 1099511693312 1) Cell.X
    ⟨2, 0, 0, [1, 0, 1, 1, 0, 1, 1, 1, 1], [1, 1, 1, 1, 0, 1, 1, 0, 1]⟩
    ⟨6, 0, 1, [0, 1, 1, 1, 1, 1, 1, 1, 1], [0, 1, 1, 1, 1, 1, 1, 1, 1]⟩
    2 6 (Or.inr rfl) (by decide!) (by decide!) (by decide!) (by decide)

/-- Move 4 of the game played by `main`: O marks `(1, 1)`, and no side has
a completed line before the move. -/
theorem move_4 :
    find_best (Game.ofMasks 1099511693312 16777217) Cell.O = ⟨some 1, some 1⟩ ∧
      (Game.ofMasks 1099511693312 16777217).winner Cell.O = false ∧
      (Game.ofMasks 1099511693312 16777217).winner Cell.X = false :=
  move_sound (Game.ofMasks 1099511693312 16777217) Cell.O
    ⟨4, 0, 0, [0, 1, 0, 1, 1, 1, 1, 1, 1], [0, 1, 1, 1, 1, 1, 0, 1, 1]⟩
    ⟨4, 0, 0, [1, 0, 1, 1, 0, 1, 1, 1, 1], [1, 1, 1, 1, 0, 1, 1, 0, 1]⟩
    1 1 (Or.inl rfl) (by decide!) (by decide!) (by decide!) (by decide)

/-- Move 5 of the game played by `main`: X marks `(1, 2)`, and no side has
a completed line before the move. -/
theorem move_5 :
    find_best (Game.ofMasks 1099511694336 16777217) Cell.X = ⟨some 1, some 2⟩ ∧
      (Game.ofMasks 1099511694336 16777217).winner Cell.O = false ∧
      (Game.ofMasks 1099511694336 16777217).winner Cell.X = false :=
  move_sound (Game.ofMasks 1099511694336 16777217) Cell.X
    ⟨4, 0, 0, [1, 0, 1, 1, 0, 1, 1, 1, 1], [1, 0, 1, 1, 0, 1, 1, 0, 1]⟩
    ⟨6, 0, 0, [0, 1, 0, 1, 1, 1, 1, 1, 1], [0, 1, 1, 1, 1, 1, 0, 1, 1]⟩
    1 2 (Or.inr rfl) (by decide!) (by decide!) (by decide!) (by decide)

/-- Move 6 of the game played by `main`: O marks `(0, 2)`, and no side has
a completed line before the move. -/
theorem move_6 :
    find_best (Game.ofMasks 1099511694336 16779265) Cell.O = ⟨some 0, some 2⟩ ∧
      (Game.ofMasks 1099511694336 16779265).winner Cell.O = false ∧
      (Game.ofMasks 1099511694336 16779265).winner Cell.X = false :=
  move_sound (Game.ofMasks 1099511694336 16779265) Cell.O
    ⟨4, 0, 0, [0, 0, 0, 1, 1, 1, 1, 1, 1], [0, 1, 0, 1, 1, 1, 0, 1, 1]⟩
    ⟨5, 0, 0, [1, 0, 1, 1, 0, 1, 1, 1, 1], [1, 0, 1, 1, 0, 1, 1, 0, 1]⟩
    0 2 (Or.inl rfl) (by decide!) (by decide!) (by decide!) (by decide)

/-- Move 7 of the game played by `main`: X marks `(3, 1)`, and no side has
a completed line before the move. -/
theorem move_7 :
    find_best (Game.ofMasks 1099511694340 16779265) Cell.X = ⟨some 3, some 1⟩ ∧
      (Game.ofMasks 1099511694340 16779265).winner Cell.O = false ∧
      (Game.ofMasks 1099511694340 16779265).winner Cell.X = false :=
  move_sound (Game.ofMasks 1099511694340 16779265) Cell.X
    ⟨3, 0, 0, [0, 0, 1, 1, 0, 1, 1, 1, 1], [1, 0, 0, 1, 0, 1, 1, 0, 1]⟩
    ⟨4, 0, 0, [0, 0, 0, 1, 1, 1, 1, 1, 1], [0, 1, 0, 1, 1, 1, 0, 1, 1]⟩
    3 1 (Or.inr rfl) (by decide!) (by decide!) (by decide!) (by decide)

/-- Move 8 of the game played by `main`: O marks `(2, 0)`, and no side has
a completed line before the move. -/
theorem move_8 :
    find_best (Game.ofMasks 1099511694340 285214721) Cell.O = ⟨some 2, some 0⟩ ∧
      (Game.ofMasks 1099511694340 285214721).winner Cell.O = false ∧
      (Game.ofMasks 1099511694340 285214721).winner Cell.X = false :=
  move_sound (Game.ofMasks 1099511694340 285214721) Cell.O
    ⟨3, 0, 0, [0, 0, 0, 0, 1, 1, 1, 1, 1], [0, 0, 0, 1, 1, 1, 0, 1, 1]⟩
    ⟨4, 0, 0, [0, 0, 1, 1, 0, 1, 1, 1, 1], [1, 0, 0, 1, 0, 1, 1, 0, 1]⟩
    2 0 (Or.inl rfl) (by decide!) (by decide!) (by decide!) (by decide)

/-- Move 9 of the game played by `main`: X marks `(4, 3)`, and no side has
a completed line before the move. -/
theorem move_9 :
    find_best (Game.ofMasks 1099511956484 285214721) Cell.X = ⟨some 4, some 3⟩ ∧
      (Game.ofMasks 1099511956484 285214721).winner Cell.O = false ∧
      (Game.ofMasks 1099511956484 285214721).winner Cell.X = false :=
  move_sound (Game.ofMasks 1099511956484 285214721) Cell.X
    ⟨2, 0, 0, [0, 0, 0, 1, 0, 1, 1, 1, 1], [0, 0, 0, 1, 0, 1, 1, 0, 1]⟩
    ⟨3, 0, 0, [0, 0, 0, 0, 1, 1, 1, 1, 1], [0, 0, 0, 1, 1, 1, 0, 1, 1]⟩
    4 3 (Or.inr rfl) (by decide!) (by decide!) (by decide!) (by decide)

/-- Move 10 of the game played by `main`: O marks `(3, 3)`, and no side has
a completed line before the move. -/
theorem move_10 :
    find_best (Game.ofMasks 1099511956484 550041028609) Cell.O = ⟨some 3, some 3⟩ ∧
      (Game.ofMasks 1099511956484 550041028609).winner Cell.O = false ∧
      (Game.ofMasks 1099511956484 550041028609).winner Cell.X = false :=
  move_sound (Game.ofMasks 1099511956484 550041028609) Cell.O
    ⟨2, 0, 0, [0, 0, 0, 0, 0, 1, 1, 1, 1], [0, 0, 0, 0, 1, 1, 0, 1, 1]⟩
    ⟨3, 0, 0, [0, 0, 0, 1, 0, 1, 1, 1, 1], [0, 0, 0, 1, 0, 1, 1, 0, 1]⟩
    3 3 (Or.inl rfl) (by decide!) (by decide!) (by decide!) (by decide)

/-- Move 11 of the game played by `main`: X marks `(5, 4)`, and no side has
a completed line before the move. -/
theorem move_11 :
    find_best (Game.ofMasks 1100585698308 550041028609) Cell.X = ⟨some 5, some 4⟩ ∧
      (Game.ofMasks 1100585698308 550041028609).winner Cell.O = false ∧
      (Game.ofMasks 1100585698308 550041028609).winner Cell.X = false :=
  move_sound (Game.ofMasks 1100585698308 550041028609) Cell.X
    ⟨1, 0, 0, [0, 0, 0, 0, 0, 1, 1, 1, 1], [0, 0, 0, 0, 0, 1, 1, 0, 1]⟩
    ⟨2, 0, 0, [0, 0, 0, 0, 0, 1, 1, 1, 1], [0, 0, 0, 0, 1, 1, 0, 1, 1]⟩
    5 4 (Or.inr rfl) (by decide!) (by decide!) (by decide!) (by decide)

/-- Move 12 of the game played by `main`: O marks `(5, 5)`, and no side has
a completed line before the move. -/
theorem move_12 :
    find_best (Game.ofMasks 1100585698308 563499994449921) Cell.O = ⟨some 5, some 5⟩ ∧
      (Game.ofMasks 1100585698308 563499994449921).winner Cell.O = false ∧
      (Game.ofMasks 1100585698308 563499994449921).winner Cell.X = false :=
  move_sound (Game.ofMasks 1100585698308 563499994449921) Cell.O
    ⟨1, 0, 0, [0, 0, 0, 0, 0, 0, 1, 1, 1], [0, 0, 0, 0, 0, 1, 0, 1, 1]⟩
    ⟨2, 0, 0, [0, 0, 0, 0, 0, 1, 1, 1, 1], [0, 0, 0, 0, 0, 1, 1, 0, 1]⟩
    5 5 (Or.inl rfl) (by decide!) (by decide!) (by decide!) (by decide)

/-- Move 13 of the game played by `main`: X marks `(6, 5)`, and no side has
a completed line before the move. -/
theorem move_13 :
    find_best (Game.ofMasks 1127000492540932 563499994449921) Cell.X = ⟨some 6, some 5⟩ ∧
      (Game.ofMasks 1127000492540932 563499994449921).winner Cell.O = false ∧
      (Game.ofMasks 1127000492540932 563499994449921).winner Cell.X = false :=
  move_sound (Game.ofMasks 1127000492540932 563499994449921) Cell.X
    ⟨1, 0, 0, [0, 0, 0, 0, 0, 0, 1, 1, 1], [0, 0, 0, 0, 0, 0, 1, 0, 1]⟩
    ⟨2, 0, 0, [0, 0, 0, 0, 0, 0, 1, 1, 1], [0, 0, 0, 0, 0, 1, 0, 1, 1]⟩
    6 5 (Or.inr rfl) (by decide!) (by decide!) (by decide!) (by decide)

/-- Move 14 of the game played by `main`: O marks `(6, 6)`, and no side has
a completed line before the move. -/
theorem move_14 :
    find_best (Game.ofMasks 1127000492540932 577024252297873409) Cell.O = ⟨some 6, some 6⟩ ∧
      (Game.ofMasks 1127000492540932 577024252297873409).winner Cell.O = false ∧
      (Game.ofMasks 1127000492540932 577024252297873409).winner Cell.X = false :=
  move_sound (Game.ofMasks 1127000492540932 577024252297873409) Cell.O
    ⟨1, 0, 0, [0, 0, 0, 0, 0, 0, 0, 1, 1], [0, 0, 0, 0, 0, 0, 0, 1, 1]⟩
    ⟨2, 0, 0, [0, 0, 0, 0, 0, 0, 1, 1, 1], [0, 0, 0, 0, 0, 0, 1, 0, 1]⟩
    6 6 (Or.inl rfl) (by decide!) (by decide!) (by decide!) (by decide)

/-- Move 15 of the game played by `main`: X marks `(7, 7)`, and no side has
a completed line before the move. -/
theorem move_15 :
    find_best (Game.ofMasks 1154048505099387908 577024252297873409) Cell.X = ⟨some 7, some 7⟩ ∧
      (Game.ofMasks 1154048505099387908 577024252297873409).winner Cell.O = false ∧
      (Game.ofMasks 1154048505099387908 577024252297873409).winner Cell.X = false :=
  move_sound (Game.ofMasks 1154048505099387908 577024252297873409) Cell.X
    ⟨0, 0, 0, [0, 0, 0, 0, 0, 0, 0, 1, 1], [0, 0, 0, 0, 0, 0, 0, 0, 1]⟩
    ⟨1, 0, 0, [0, 0, 0, 0, 0, 0, 0, 1, 1], [0, 0, 0, 0, 0, 0, 0, 1, 1]⟩
    7 7 (Or.inr rfl) (by decide!) (by decide!) (by decide!) (by decide)

/-- Move 16 of the game played by `main`: O marks `(7, 8)`, and no side has
a completed line before the move. -/
theorem move_16 :
    find_best (Game.ofMasks 1154048505099387908 1181168644969709176833) Cell.O = ⟨some 7, some 8⟩ ∧
      (Game.ofMasks 1154048505099387908 1181168644969709176833).winner Cell.O = false ∧
      (Game.ofMasks 1154048505099387908 1181168644969709176833).winner Cell.X = false :=
  move_sound (Game.ofMasks 1154048505099387908 1181168644969709176833) Cell.O
    ⟨0, 0, 0, [0, 0, 0, 0, 0, 0, 0, 0, 1], [0, 0, 0, 0, 0, 0, 0, 0, 1]⟩
    ⟨1, 0, 0, [0, 0, 0, 0, 0, 0, 0, 1, 1], [0, 0, 0, 0, 0, 0, 0, 0, 1]⟩
    7 8 (Or.inl rfl) (by decide!) (by decide!) (by decide!) (by decide)

/-- Move 17 of the game played by `main`: X marks `(8, 8)`, and no side has
a completed line before the move. -/
theorem move_17 :
    find_best (Game.ofMasks 2362337289939921994756 1181168644969709176833) Cell.X = ⟨some 8, some 8⟩ ∧
      (Game.ofMasks 2362337289939921994756 1181168644969709176833).winner Cell.O = false ∧
      (Game.ofMasks 2362337289939921994756 1181168644969709176833).winner Cell.X = false :=
  move_sound (Game.ofMasks 2362337289939921994756 1181168644969709176833) Cell.X
    ⟨0, 0, 0, [0, 0, 0, 0, 0, 0, 0, 0, 1], [0, 0, 0, 0, 0, 0, 0, 0, 0]⟩
    ⟨1, 0, 0, [0, 0, 0, 0, 0, 0, 0, 0, 1], [0, 0, 0, 0, 0, 0, 0, 0, 1]⟩
    8 8 (Or.inr rfl) (by decide!) (by decide!) (by decide!) (by decide)

/-- Move 18 of the game played by `main`: O marks `(8, 0)`, and no side has
a completed line before the move. -/
theorem move_18 :
    find_best (Game.ofMasks 2362337289939921994756 1210106988259598883883009) Cell.O = ⟨some 8, some 0⟩ ∧
      (Game.ofMasks 2362337289939921994756 1210106988259598883883009).winner Cell.O = false ∧
      (Game.ofMasks 2362337289939921994756 1210106988259598883883009).winner Cell.X = false :=
  move_sound (Game.ofMasks 2362337289939921994756 1210106988259598883883009) Cell.O
    ⟨0, 0, 0, [0, 0, 0, 0, 0, 0, 0, 0, 0], [0, 0, 0, 0, 0, 0, 0, 0, 0]⟩
    ⟨1, 0, 0, [0, 0, 0, 0, 0, 0, 0, 0, 1], [0, 0, 0, 0, 0, 0, 0, 0, 0]⟩
    8 0 (Or.inl rfl) (by decide!) (by decide!) (by decide!) (by decide)

/-- After 19 moves every line holds both an O and an X, and 62 cells are
empty. -/
theorem board_19_dead :
    (Game.ofMasks 7084703772809567208452 1210106988259598883883009).dead = true ∧
      (Game.ofMasks 7084703772809567208452 1210106988259598883883009).count Cell.E = 62 := by
  decide!

/-- The run of `main` with an `iteration_limit` of 81 or more: after 81 moves the
board is full, no side has a completed line, the limit is not exhausted, and
the next call of `find_best` returns coordinates that were never assigned. -/
theorem mainRun_ge_81 (L : Nat) (hL : 81 ≤ L) (fuel : Nat) (hfuel : 82 ≤ fuel) :
    ∃ log, log.length = 81 ∧ mainRun (L : Int) fuel = Run.undefined log := by
  have h82 : ∃ log, log.length = 81 ∧ mainRun (L : Int) 82 = Run.undefined log := by
    unfold mainRun
    rw [init_eq_ofMasks]
    rw [mainLoop_step 81 82 (Game.ofMasks 0 0) (Game.ofMasks 1099511627776 0)
      Cell.O Cell.X 4 4 (L : Int) ((L : Int) - 1) _ move_0
      (ofMasks_set_O 0 0 1099511627776 4 4 (by decide!)) rfl rfl (by omega) (by omega)]
    rw [mainLoop_step 80 81 (Game.ofMasks 1099511627776 0) (Game.ofMasks 1099511627776 1)
      Cell.X Cell.O 0 0 ((L : Int) - 1) ((L : Int) - 2) _ move_1
      (ofMasks_set_X 1099511627776 0 1 0 0 (by decide!) (by decide!)) rfl rfl (by omega) (by omega)]
    rw [mainLoop_step 79 80 (Game.ofMasks 1099511627776 1) (Game.ofMasks 1099511693312 1)
      Cell.O Cell.X 1 7 ((L : Int) - 2) ((L : Int) - 3) _ move_2
      (ofMasks_set_O 1099511627776 1 1099511693312 1 7 (by decide!)) rfl rfl (by omega) (by omega)]
    rw [mainLoop_step 78 79 (Game.ofMasks 1099511693312 1) (Game.ofMasks 1099511693312 16777217)
      Cell.X Cell.O 2 6 ((L : Int) - 3) ((L : Int) - 4) _ move_3
      (ofMasks_set_X 1099511693312 1 16777217 2 6 (by decide!) (by decide!)) rfl rfl (by omega) (by omega)]
    rw [mainLoop_step 77 78 (Game.ofMasks 1099511693312 16777217) (Game.ofMasks 1099511694336 16777217)
      Cell.O Cell.X 1 1 ((L : Int) - 4) ((L : Int) - 5) _ move_4
      (ofMasks_set_O 1099511693312 16777217 1099511694336 1 1 (by decide!)) rfl rfl (by omega) (by omega)]
    rw [mainLoop_step 76 77 (Game.ofMasks 1099511694336 16777217) (Game.ofMasks 1099511694336 16779265)
      Cell.X Cell.O 1 2 ((L : Int) - 5) ((L : Int) - 6) _ move_5
      (ofMasks_set_X 1099511694336 16777217 16779265 1 2 (by decide!) (by decide!)) rfl rfl (by omega) (by omega)]
    rw [mainLoop_step 75 76 (Game.ofMasks 1099511694336 16779265) (Game.ofMasks 1099511694340 16779265)
      Cell.O Cell.X 0 2 ((L : Int) - 6) ((L : Int) - 7) _ move_6
      (ofMasks_set_O 1099511694336 16779265 1099511694340 0 2 (by decide!)) rfl rfl (by omega) (by omega)]
    rw [mainLoop_step 74 75 (Game.ofMasks 1099511694340 16779265) (Game.ofMasks 1099511694340 285214721)
      Cell.X Cell.O 3 1 ((L : Int) - 7) ((L : Int) - 8) _ move_7
      (ofMasks_set_X 1099511694340 16779265 285214721 3 1 (by decide!) (by decide!)) rfl rfl (by omega) (by omega)]
    rw [mainLoop_step 73 74 (Game.ofMasks 1099511694340 285214721) (Game.ofMasks 1099511956484 285214721)
      Cell.O Cell.X 2 0 ((L : Int) - 8) ((L : Int) - 9) _ move_8
      (ofMasks_set_O 1099511694340 285214721 1099511956484 2 0 (by decide!)) rfl rfl (by omega) (by omega)]
    rw [mainLoop_step 72 73 (Game.ofMasks 1099511956484 285214721) (Game.ofMasks 1099511956484 550041028609)
      Cell.X Cell.O 4 3 ((L : Int) - 9) ((L : Int) - 10) _ move_9
      (ofMasks_set_X 1099511956484 285214721 550041028609 4 3 (by decide!) (by decide!)) rfl rfl (by omega) (by omega)]
    rw [mainLoop_step 71 72 (Game.ofMasks 1099511956484 550041028609) (Game.ofMasks 1100585698308 550041028609)
      Cell.O Cell.X 3 3 ((L : Int) - 10) ((L : Int) - 11) _ move_10
      (ofMasks_set_O 1099511956484 550041028609 1100585698308 3 3 (by decide!)) rfl rfl (by omega) (by omega)]
    rw [mainLoop_step 70 71 (Game.ofMasks 1100585698308 550041028609) (Game.ofMasks 1100585698308 563499994449921)
      Cell.X Cell.O 5 4 ((L : Int) - 11) ((L : Int) - 12) _ move_11
      (ofMasks_set_X 1100585698308 550041028609 563499994449921 5 4 (by decide!) (by decide!)) rfl rfl (by omega) (by omega)]
    rw [mainLoop_step 69 70 (Game.ofMasks 1100585698308 563499994449921) (Game.ofMasks 1127000492540932 563499994449921)
      Cell.O Cell.X 5 5 ((L : Int) - 12) ((L : Int) - 13) _ move_12
      (ofMasks_set_O 1100585698308 563499994449921 1127000492540932 5 5 (by decide!)) rfl rfl (by omega) (by omega)]
    rw [mainLoop_step 68 69 (Game.ofMasks 1127000492540932 563499994449921) (Game.ofMasks 1127000492540932 577024252297873409)
      Cell.X Cell.O 6 5 ((L : Int) - 13) ((L : Int) - 14) _ move_13
      (ofMasks_set_X 1127000492540932 563499994449921 577024252297873409 6 5 (by decide!) (by decide!)) rfl rfl (by omega) (by omega)]
    rw [mainLoop_step 67 68 (Game.ofMasks 1127000492540932 577024252297873409) (Game.ofMasks 1154048505099387908 577024252297873409)
      Cell.O Cell.X 6 6 ((L : Int) - 14) ((L : Int) - 15) _ move_14
      (ofMasks_set_O 1127000492540932 577024252297873409 1154048505099387908 6 6 (by decide!)) rfl rfl (by omega) (by omega)]
    rw [mainLoop_step 66 67 (Game.ofMasks 1154048505099387908 577024252297873409) (Game.ofMasks 1154048505099387908 1181168644969709176833)
      Cell.X Cell.O 7 7 ((L : Int) - 15) ((L : Int) - 16) _ move_15
      (ofMasks_set_X 1154048505099387908 577024252297873409 1181168644969709176833 7 7 (by decide!) (by decide!)) rfl rfl (by omega) (by omega)]
    rw [mainLoop_step 65 66 (Game.ofMasks 1154048505099387908 1181168644969709176833) (Game.ofMasks 2362337289939921994756 1181168644969709176833)
      Cell.O Cell.X 7 8 ((L : Int) - 16) ((L : Int) - 17) _ move_16
      (ofMasks_set_O 1154048505099387908 1181168644969709176833 2362337289939921994756 7 8 (by decide!)) rfl rfl (by omega) (by omega)]
    rw [mainLoop_step 64 65 (Game.ofMasks 2362337289939921994756 1181168644969709176833) (Game.ofMasks 2362337289939921994756 1210106988259598883883009)
      Cell.X Cell.O 8 8 ((L : Int) - 17) ((L : Int) - 18) _ move_17
      (ofMasks_set_X 2362337289939921994756 1181168644969709176833 1210106988259598883883009 8 8 (by decide!) (by decide!)) rfl rfl (by omega) (by omega)]
    rw [mainLoop_step 63 64 (Game.ofMasks 2362337289939921994756 1210106988259598883883009) (Game.ofMasks 7084703772809567208452 1210106988259598883883009)
      Cell.O Cell.X 8 0 ((L : Int) - 18) ((L : Int) - 19) _ move_18
      (ofMasks_set_O 2362337289939921994756 1210106988259598883883009 7084703772809567208452 8 0 (by decide!)) rfl rfl (by omega) (by omega)]
    obtain ⟨log, hlen, hrun⟩ := dead_run 62 63 (Game.ofMasks 7084703772809567208452 1210106988259598883883009) Cell.X
      ((L : Int) - 19)
      ((((((((((((((((((([] ++ [_]) ++ [_]) ++ [_]) ++ [_]) ++ [_]) ++ [_]) ++ [_]) ++ [_]) ++ [_])
        ++ [_]) ++ [_]) ++ [_]) ++ [_]) ++ [_]) ++ [_]) ++ [_]) ++ [_]) ++ [_]) ++ [_])
      board_19_dead.1 board_19_dead.2 (Or.inr rfl) (by push_cast; omega) (by decide)
    refine ⟨log, ?_, hrun⟩
    rw [hlen]
    rfl
  obtain ⟨log, hlen, hrun⟩ := h82
  refine ⟨log, hlen, ?_⟩
  unfold mainRun at hrun ⊢
  have h := mainLoop_fuel_mono 82 Game.init Cell.O (L : Int) [] _ hrun
    (by intro lg hc; cases hc) (fuel - 82)
  have hf : 82 + (fuel - 82) = fuel := by omega
  rw [hf] at h
  exact h

/-! ## The first move -/

/-- The score tables of the empty board are the same for both sides. -/
theorem init_table (c : Cell) (hc : c = Cell.O ∨ c = Cell.X) :
    gainTable (Game.ofMasks 0 0) c =
      ⟨0, 1, 1, [1, 1, 1, 1, 1, 1, 1, 1, 1], [1, 1, 1, 1, 1, 1, 1, 1, 1]⟩ := by
  rcases hc with rfl | rfl <;> decide!

/-- The result of the loops of `find_best_simple` on the empty board. -/
theorem init_quickFind :
    quickFind (Game.ofMasks 0 0)
        ⟨0, 1, 1, [1, 1, 1, 1, 1, 1, 1, 1, 1], [1, 1, 1, 1, 1, 1, 1, 1, 1]⟩ =
      ⟨some 4, some 4, 4⟩ := by
  decide!

/-- C20: on the all-empty board `find_best_simple` returns the centre cell
`(4, 4)` with rate 4 for either side, the centre being the only cell that lies
on four lines, and `find_best` for O returns `(4, 4)`; the first move of every
run of `main` is O at the centre. -/
theorem first_move_centre :
    find_best_simple Game.init Cell.O = ⟨some 4, some 4, 4⟩ ∧
    find_best_simple Game.init Cell.X = ⟨some 4, some 4, 4⟩ ∧
    find_best Game.init Cell.O = ⟨some 4, some 4⟩ ∧
    (∀ (l : Line) (p : Fin BoardSize × Fin BoardSize),
      l.through p = true ↔ ∃ k, l.coord k = p) ∧
    (∀ i j : Fin BoardSize,
      (allLines.filter fun l => l.through (i, j)).length = 4 ↔ (i, j) = (4, 4)) ∧
    (∀ fuel : Nat, ∃ game turn lim brk log,
      mainRun mainLimit (fuel + 51) = Run.exited game turn lim brk log ∧
      log.head? = some ⟨Game.init, Cell.O, 4, 4, Game.init.set 4 4 Cell.O⟩) := by
  have hO : find_best_simple Game.init Cell.O = ⟨some 4, some 4, 4⟩ := by
    rw [init_eq_ofMasks, find_best_simple_quick _ Cell.O (by decide) _
      (init_table Cell.O (Or.inl rfl)), init_quickFind]
  have hX : find_best_simple Game.init Cell.X = ⟨some 4, some 4, 4⟩ := by
    rw [init_eq_ofMasks, find_best_simple_quick _ Cell.X (by decide) _
      (init_table Cell.X (Or.inr rfl)), init_quickFind]
  have hfb : find_best Game.init Cell.O = ⟨some 4, some 4⟩ := by
    unfold find_best
    have hother : Cell.O.other = Cell.X := rfl
    rw [hother, hO, hX]
    rfl
  refine ⟨hO, hX, hfb, through_iff, ?_, ?_⟩
  · decide!
  intro fuel
  have hstep : mainRun mainLimit (fuel + 51) =
      mainLoop (fuel + 50) (Game.init.set 4 4 Cell.O) Cell.X 49
        ([] ++ [⟨Game.init, Cell.O, 4, 4, Game.init.set 4 4 Cell.O⟩]) := by
    unfold mainRun mainLimit
    exact mainLoop_step (fuel + 50) (fuel + 51) Game.init (Game.init.set 4 4 Cell.O)
      Cell.O Cell.X 4 4 50 49 []
      ⟨hfb, init_winner Cell.O (by decide), init_winner Cell.X (by decide)⟩
      rfl rfl rfl (by decide) (by decide)
  have hE : Game.init.at 4 4 = Cell.E := rfl
  obtain ⟨game, turn, lim, brk, log, hrun, _, ⟨ext, hext⟩, _, _, _, _, _⟩ :=
    mainLoop_exits 49 (fuel + 50) (Game.init.set 4 4 Cell.O) Cell.X
      ([] ++ [(⟨Game.init, Cell.O, 4, 4, Game.init.set 4 4 Cell.O⟩ : Played)])
      (by simp) (by omega) (by decide)
      (by
        rw [count_set_self Game.init Cell.O (by decide) 4 4 hE, init_count Cell.O (by decide)]
        rfl)
      (by
        rw [count_set_other Game.init Cell.O Cell.X (by decide) (by decide) 4 4 hE,
          init_count Cell.X (by decide)]
        rfl)
      (by
        apply logOK_append [] _ (by intro k e hk; simp at hk)
        exact ⟨rfl, init_count Cell.O (by decide), init_count Cell.X (by decide),
          init_winner Cell.O (by decide), init_winner Cell.X (by decide), hfb, 4, 4, rfl, rfl,
          hE, rfl⟩)
  refine ⟨game, turn, lim, brk, log, ?_, ?_⟩
  · rw [hstep]
    exact hrun
  · rw [hext]
    rfl

/-! ## The loop of `main` and completed lines -/

/-- From any state in which a side has a completed line, the loop of `main` is
left by its condition without a pass through the body. -/
theorem mainLoop_no_move_on_win (f : Nat) (game : Game) (turn : Cell) (lim : Int)
    (log : List Played) (hw : game.winner Cell.O = true ∨ game.winner Cell.X = true) :
    mainLoop (f + 1) game turn lim log = Run.exited game turn lim false log := by
  rw [mainLoop]
  have hcond : ¬ ((!game.winner Cell.O && !game.winner Cell.X) = true) := by
    rcases hw with h | h <;> simp [h]
  rw [if_neg hcond]

/-- From any state, when the loop of `main` is left: every pass it made started
on a board without a completed line, it is left by its condition only when a
side has a completed line, and by `break` only after `iteration_limit + 1`
passes. -/
theorem mainLoop_exit_inv (f : Nat) : ∀ (game : Game) (turn : Cell) (lim : Int)
    (log : List Played) (game' : Game) (turn' : Cell) (lim' : Int) (brk : Bool)
    (log' : List Played),
    mainLoop f game turn lim log = Run.exited game' turn' lim' brk log' →
    ∃ ext, log' = log ++ ext ∧
      (∀ e ∈ ext, find_best e.before e.turn = ⟨some e.i, some e.j⟩ ∧
        e.before.winner Cell.O = false ∧ e.before.winner Cell.X = false) ∧
      (brk = false → game'.winner Cell.O = true ∨ game'.winner Cell.X = true) ∧
      (brk = true → (ext.length : Int) = lim + 1) := by
  induction f with
  | zero =>
    intro game turn lim log game' turn' lim' brk log' h
    rw [mainLoop] at h
    cases h
  | succ f ih =>
    intro game turn lim log game' turn' lim' brk log' h
    rw [mainLoop] at h
    split at h
    · rename_i hcond
      have hw : game.winner Cell.O = false ∧ game.winner Cell.X = false := by
        simpa using hcond
      split at h
      · rename_i i j hi hj
        have hfb : find_best game turn = ⟨some i, some j⟩ := by
          cases hfb' : find_best game turn with
          | mk a b =>
            rw [hfb'] at hi hj
            simp only at hi hj
            rw [hi, hj]
        split at h
        · rename_i g2 _
          split at h
          · rename_i hl
            injection h with h1 h2 h3 h4 h5
            refine ⟨[⟨game, turn, i, j, g2⟩], h5.symm, ?_, ?_, ?_⟩
            · intro e he
              rw [List.mem_singleton] at he
              rw [he]
              exact ⟨hfb, hw.1, hw.2⟩
            · intro hb
              rw [← h4] at hb
              exact absurd hb (by decide)
            · intro _
              rw [hl]
              rfl
          · rename_i hl
            obtain ⟨ext, hext, hall, hbf, hbt⟩ := ih _ _ _ _ game' turn' lim' brk log' h
            refine ⟨⟨game, turn, i, j, g2⟩ :: ext, ?_, ?_, hbf, ?_⟩
            · rw [hext, List.append_assoc]
              rfl
            · intro e he
              rcases List.mem_cons.mp he with h1 | h1
              · rw [h1]
                exact ⟨hfb, hw.1, hw.2⟩
              · exact hall e h1
            · intro hb
              have := hbt hb
              rw [List.length_cons]
              push_cast
              omega
        · cases h
      · cases h
    · rename_i hcond
      injection h with h1 h2 h3 h4 h5
      refine ⟨[], by rw [List.append_nil, h5], ?_, ?_, ?_⟩
      · intro e he
        exact absurd he (List.not_mem_nil e)
      · intro _
        rw [← h1]
        cases hO : game.winner Cell.O
        · cases hX : game.winner Cell.X
          · rw [hO, hX] at hcond
            exact absurd rfl hcond
          · exact Or.inr rfl
        · exact Or.inl rfl
      · intro hb
        rw [← h4] at hb
        exact absurd hb (by decide)

/-- On the board where O holds the first eight cells of row 0, with O to move
and the limit of `main`: the loop makes the one move that completes row 0 and is
then left by its condition, with the limit not exhausted. -/
theorem mainLoop_nearWin (f : Nat) :
    mainLoop (f + 2) nearWinBoard Cell.O mainLimit [] =
      Run.exited (nearWinBoard.set 0 8 Cell.O) Cell.X 49 false
        [⟨nearWinBoard, Cell.O, 0, 8, nearWinBoard.set 0 8 Cell.O⟩] ∧
    (nearWinBoard.set 0 8 Cell.O).winner Cell.O = true := by
  have hmove := move_sound nearWinBoard Cell.O
    ⟨17, 1, 1, [73, 1, 1, 1, 1, 1, 1, 1, 1], [1, 1, 1, 1, 1, 1, 1, 1, 1]⟩
    ⟨0, 0, 1, [0, 1, 1, 1, 1, 1, 1, 1, 1], [0, 0, 0, 0, 0, 0, 0, 0, 1]⟩
    0 8 (Or.inl rfl) (by decide!) (by decide!) (by decide!) (by decide)
  have hwin : (nearWinBoard.set 0 8 Cell.O).winner Cell.O = true := by decide!
  refine ⟨?_, hwin⟩
  unfold mainLimit
  rw [mainLoop_step (f + 1) (f + 2) nearWinBoard (nearWinBoard.set 0 8 Cell.O) Cell.O Cell.X
    0 8 50 49 [] hmove rfl rfl rfl (by decide) (by decide)]
  exact mainLoop_no_move_on_win f _ Cell.X 49 _ (Or.inl hwin)

/-- C15: the loop of `main` makes no move once a side has a completed line.  In
the run of `main` (stated for every cap `L <= 80`; the cap of `main` is 50) every
board on which the loop calls `find_best` has `winner(O) = false` and
`winner(X) = false`, and when the loop is left either a side has a completed
line or the iteration cap is exhausted, with exactly `L + 1` moves made.  The
same holds of the loop started in any state: with a completed line on the board
it is left at once without a move; every pass it makes starts on a board without
a completed line; it is left by its condition only when a side has a completed
line and by `break` only after `iteration_limit + 1` passes.  On the board where
O needs one more mark in row 0 the loop makes that move and is then left with
the cap not exhausted. -/
theorem main_stops_on_win (L : Nat) (hL : L ≤ 80) (fuel : Nat) (hfuel : L + 1 ≤ fuel) :
    (∃ game turn lim brk log,
      mainRun (L : Int) fuel = Run.exited game turn lim brk log ∧
      (∀ (k : Nat) (e : Played), log[k]? = some e →
        find_best e.before e.turn = ⟨some e.i, some e.j⟩ ∧
        e.before.winner Cell.O = false ∧ e.before.winner Cell.X = false) ∧
      (brk = false → game.winner Cell.O = true ∨ game.winner Cell.X = true) ∧
      (brk = true → log.length = L + 1) ∧
      ((game.winner Cell.O = true ∨ game.winner Cell.X = true) ∨ log.length = L + 1)) ∧
    (∀ (f : Nat) (game : Game) (turn : Cell) (lim : Int) (log : List Played),
      (game.winner Cell.O = true ∨ game.winner Cell.X = true) →
      mainLoop (f + 1) game turn lim log = Run.exited game turn lim false log) ∧
    (∀ (f : Nat) (game : Game) (turn : Cell) (lim : Int) (log : List Played)
      (game' : Game) (turn' : Cell) (lim' : Int) (brk : Bool) (log' : List Played),
      mainLoop f game turn lim log = Run.exited game' turn' lim' brk log' →
      ∃ ext, log' = log ++ ext ∧
        (∀ e ∈ ext, find_best e.before e.turn = ⟨some e.i, some e.j⟩ ∧
          e.before.winner Cell.O = false ∧ e.before.winner Cell.X = false) ∧
        (brk = false → game'.winner Cell.O = true ∨ game'.winner Cell.X = true) ∧
        (brk = true → (ext.length : Int) = lim + 1)) ∧
    (∀ f : Nat,
      mainLoop (f + 2) nearWinBoard Cell.O mainLimit [] =
        Run.exited (nearWinBoard.set 0 8 Cell.O) Cell.X 49 false
          [⟨nearWinBoard, Cell.O, 0, 8, nearWinBoard.set 0 8 Cell.O⟩] ∧
      (nearWinBoard.set 0 8 Cell.O).winner Cell.O = true) := by
  refine ⟨?_, mainLoop_no_move_on_win, mainLoop_exit_inv, mainLoop_nearWin⟩
  obtain ⟨game, turn, lim, brk, log, hrun, hok, _, hbrk, hwin, _, _⟩ :=
    mainRun_exits L hL fuel hfuel
  refine ⟨game, turn, lim, brk, log, hrun, ?_, hwin, hbrk, ?_⟩
  · intro k e hk
    obtain ⟨_, _, _, hwO, hwX, hfb, _⟩ := hok k e hk
    exact ⟨hfb, hwO, hwX⟩
  · cases hb : brk
    · exact Or.inl (hwin hb)
    · exact Or.inr (hbrk hb)

/-- Witness for `main_stops_on_win`: the cap 50 of `main` with fuel 51. -/
theorem main_stops_on_win_witness :
    50 ≤ 80 ∧ 50 + 1 ≤ 51 ∧
    ((∃ game turn lim brk log,
      mainRun ((50 : Nat) : Int) 51 = Run.exited game turn lim brk log ∧
      (∀ (k : Nat) (e : Played), log[k]? = some e →
        find_best e.before e.turn = ⟨some e.i, some e.j⟩ ∧
        e.before.winner Cell.O = false ∧ e.before.winner Cell.X = false) ∧
      (brk = false → game.winner Cell.O = true ∨ game.winner Cell.X = true) ∧
      (brk = true → log.length = 50 + 1) ∧
      ((game.winner Cell.O = true ∨ game.winner Cell.X = true) ∨ log.length = 50 + 1)) ∧
    (∀ (f : Nat) (game : Game) (turn : Cell) (lim : Int) (log : List Played),
      (game.winner Cell.O = true ∨ game.winner Cell.X = true) →
      mainLoop (f + 1) game turn lim log = Run.exited game turn lim false log) ∧
    (∀ (f : Nat) (game : Game) (turn : Cell) (lim : Int) (log : List Played)
      (game' : Game) (turn' : Cell) (lim' : Int) (brk : Bool) (log' : List Played),
      mainLoop f game turn lim log = Run.exited game' turn' lim' brk log' →
      ∃ ext, log' = log ++ ext ∧
        (∀ e ∈ ext, find_best e.before e.turn = ⟨some e.i, some e.j⟩ ∧
          e.before.winner Cell.O = false ∧ e.before.winner Cell.X = false) ∧
        (brk = false → game'.winner Cell.O = true ∨ game'.winner Cell.X = true) ∧
        (brk = true → (ext.length : Int) = lim + 1)) ∧
    (∀ f : Nat,
      mainLoop (f + 2) nearWinBoard Cell.O mainLimit [] =
        Run.exited (nearWinBoard.set 0 8 Cell.O) Cell.X 49 false
          [⟨nearWinBoard, Cell.O, 0, 8, nearWinBoard.set 0 8 Cell.O⟩] ∧
      (nearWinBoard.set 0 8 Cell.O).winner Cell.O = true)) :=
  ⟨by decide, by decide, main_stops_on_win 50 (by decide) 51 (by decide)⟩

end TicTacToe
